import Mathlib

set_option maxRecDepth 100000

/-!
# file_hasher — verification of the manifest store and its integrity protocol

Shallow embedding of the core of the `file_hasher` repository
(`src/file_hasher_core/src`): the `Checksum` XOR-fold type
(`shared/checksum.rs`), the manifest entry `EDElement` with its parser and
serializer (`e_d_list/e_d_element.rs`), the path banlist trie
(`path_banlist.rs`) and the manifest store `EDList` with its open / save /
create / delete / sort / sync operations (`e_d_list.rs`).

Rust strings are modelled as Lean `String` (char-level; hashing feeds their
UTF-8 bytes, as in the source).  Machine integers (`u8`, `u64`) are `Nat`
with explicit bounds.  I/O (filesystem, operator prompts) is passed in as
explicit data.  The external Blake2b primitive (the `blake2` crate, not code
of this repository) is replaced by an executable stand-in that is an
arbitrary fixed function of the byte stream fed to it; every theorem below
depends only on which byte stream is hashed, never on properties of the
stand-in beyond being a function.
-/

/-- `HASH_OUTPUT_LENGTH` from `shared/constants`: checksums are 32 bytes. -/
def HASH_OUTPUT_LENGTH : Nat := 32

/-- Model of `shared::Checksum` (`checksum.rs`): a `[u8; 32]`, as a list of
`Nat` of length 32 with every byte below 256. -/
structure Checksum where
  bytes : List Nat
  len32 : bytes.length = 32
  bounded : ∀ b ∈ bytes, b < 256

theorem Checksum.ext_bytes : ∀ {a b : Checksum}, a.bytes = b.bytes → a = b
  | ⟨_, _, _⟩, ⟨_, _, _⟩, rfl => rfl

instance : DecidableEq Checksum := fun a b =>
  if h : a.bytes = b.bytes then .isTrue (Checksum.ext_bytes h)
  else .isFalse (fun hab => h (by rw [hab]))

/-- `Checksum::default()`: all-zero bytes. -/
def Checksum.zero : Checksum :=
  ⟨List.replicate 32 0, by simp, by intro b hb; simp at hb; omega⟩

theorem zipXor_bounded : ∀ (a b : List Nat), (∀ x ∈ a, x < 256) → (∀ x ∈ b, x < 256) →
    ∀ x ∈ List.zipWith Nat.xor a b, x < 256
  | [], _, _, _ => by simp
  | _ :: _, [], _, _ => by simp
  | x :: a, y :: b, ha, hb => by
      intro z hz
      simp only [List.zipWith, List.mem_cons] at hz
      rcases hz with hz | hz
      · subst hz
        exact Nat.xor_lt_two_pow (n := 8) (ha x (by simp)) (hb y (by simp))
      · exact zipXor_bounded a b (fun u hu => ha u (by simp [hu]))
          (fun u hu => hb u (by simp [hu])) z hz

/-- `impl BitXorAssign<&Checksum> for Checksum` (`checksum.rs` lines 31-35):
byte-wise XOR via zipping the two byte arrays. -/
def Checksum.xor (a b : Checksum) : Checksum :=
  ⟨List.zipWith Nat.xor a.bytes b.bytes,
   by simp [a.len32, b.len32],
   zipXor_bounded a.bytes b.bytes a.bounded b.bounded⟩

theorem Checksum.xor_bytes (a b : Checksum) :
    (Checksum.xor a b).bytes = List.zipWith Nat.xor a.bytes b.bytes := rfl

/- Byte-level XOR algebra used throughout: associativity, commutativity,
zero identity and self-inverse, first on raw lists, then on `Checksum`. -/

theorem natXor_eq (a b : Nat) : Nat.xor a b = a ^^^ b := rfl

theorem zipXor_assoc : ∀ (a b c : List Nat),
    List.zipWith Nat.xor (List.zipWith Nat.xor a b) c =
      List.zipWith Nat.xor a (List.zipWith Nat.xor b c)
  | [], _, _ => by simp
  | _ :: _, [], _ => by simp
  | _ :: _, _ :: _, [] => by simp
  | x :: a, y :: b, z :: c => by
      simp only [List.zipWith, List.cons.injEq]
      exact ⟨Nat.xor_assoc x y z, zipXor_assoc a b c⟩

theorem zipXor_comm : ∀ (a b : List Nat),
    List.zipWith Nat.xor a b = List.zipWith Nat.xor b a
  | [], b => by cases b <;> simp
  | _ :: _, [] => by simp
  | x :: a, y :: b => by
      simp only [List.zipWith, List.cons.injEq]
      exact ⟨Nat.xor_comm x y, zipXor_comm a b⟩

theorem zipXor_self : ∀ (a : List Nat),
    List.zipWith Nat.xor a a = List.replicate a.length 0
  | [] => rfl
  | x :: a => by
      simp only [List.zipWith, List.length_cons, List.replicate, List.cons.injEq]
      exact ⟨Nat.xor_self x, zipXor_self a⟩

theorem zipXor_zero : ∀ (a : List Nat),
    List.zipWith Nat.xor (List.replicate a.length 0) a = a
  | [] => rfl
  | x :: a => by
      simp only [List.length_cons, List.replicate, List.zipWith, List.cons.injEq]
      exact ⟨Nat.zero_xor x, zipXor_zero a⟩

theorem Checksum.xor_assoc (a b c : Checksum) :
    (a.xor b).xor c = a.xor (b.xor c) :=
  Checksum.ext_bytes (zipXor_assoc a.bytes b.bytes c.bytes)

theorem Checksum.xor_comm (a b : Checksum) : a.xor b = b.xor a :=
  Checksum.ext_bytes (zipXor_comm a.bytes b.bytes)

theorem Checksum.xor_self (a : Checksum) : a.xor a = Checksum.zero :=
  Checksum.ext_bytes (by
    show List.zipWith Nat.xor a.bytes a.bytes = List.replicate 32 0
    rw [zipXor_self, a.len32])

theorem Checksum.zero_xor (a : Checksum) : Checksum.zero.xor a = a :=
  Checksum.ext_bytes (by
    show List.zipWith Nat.xor (List.replicate 32 0) a.bytes = a.bytes
    rw [← a.len32, zipXor_zero])

theorem Checksum.xor_zero (a : Checksum) : a.xor Checksum.zero = a := by
  rw [Checksum.xor_comm, Checksum.zero_xor]

theorem Checksum.xor_cancel_right (a b : Checksum) : (a.xor b).xor b = a := by
  rw [Checksum.xor_assoc, Checksum.xor_self, Checksum.xor_zero]

/-- Stand-in for the external Blake2b primitive (the `blake2` crate; not
code of this repository).  An arbitrary fixed executable function from a
byte stream to a 32-byte checksum; no theorem in this file depends on its
internals, only on which byte stream is fed to it. -/
def blake2Stand (input : List Nat) : Checksum :=
  let seed : Nat := input.foldl (fun acc b => (acc * 131 + b + 1) % 1073741789) 97
  ⟨(List.range 32).map (fun i => (seed / (i + 1) + seed * (2 * i + 3) + i * 37) % 256),
   by simp,
   by
     intro b hb
     simp only [List.mem_map, List.mem_range] at hb
     obtain ⟨i, _, hi⟩ := hb
     omega⟩

/-- Model of a `Blake2bVar` hasher: the byte stream accumulated so far
(`update` appends, `finalize` applies the hash function). -/
def Hasher := List Nat

/-- `Blake2bVar::new(HASH_OUTPUT_LENGTH)`. -/
def Hasher.new : Hasher := []

/-- `hasher.update(bytes)`. -/
def Hasher.update (h : Hasher) (bs : List Nat) : Hasher :=
  List.append h bs

/-- `shared::blake2_to_checksum(hasher)` (`shared/functions.rs`): finalize
the hasher into a `Checksum`. -/
def Hasher.finalize (h : Hasher) : Checksum := blake2Stand h

theorem Hasher.update_assoc (h : Hasher) (a b : List Nat) :
    (h.update a).update b = h.update (a ++ b) := by
  simp [Hasher.update]

theorem Hasher.new_update (a : List Nat) : Hasher.new.update a = a := by
  simp [Hasher.update, Hasher.new]

/- ### Hex codec (the `hex` crate as used by the source: uppercase emit,
case-insensitive accept, fixed-length decode) -/

/-- Uppercase hex digit for a nibble (as `hex::encode_upper` emits). -/
def hexUpperChar (n : Nat) : Char :=
  if n < 10 then Char.ofNat (48 + n) else Char.ofNat (55 + n)

/-- `hex::encode_upper` on a byte list: two uppercase digits per byte. -/
def hexEncodeUpper (bs : List Nat) : List Char :=
  bs.flatMap (fun b => [hexUpperChar (b / 16), hexUpperChar (b % 16)])

/-- Value of one hex digit, case-insensitive (as `hex::decode` accepts). -/
def hexDigitVal (c : Char) : Option Nat :=
  if 48 ≤ c.toNat ∧ c.toNat ≤ 57 then some (c.toNat - 48)
  else if 65 ≤ c.toNat ∧ c.toNat ≤ 70 then some (c.toNat - 55)
  else if 97 ≤ c.toNat ∧ c.toNat ≤ 102 then some (c.toNat - 87)
  else none

/-- Decode hex chars two at a time; fails on a non-hex digit or an odd
number of characters. -/
def hexPairs : List Char → Option (List Nat)
  | [] => some []
  | [_] => none
  | hi :: lo :: rest =>
    match hexDigitVal hi, hexDigitVal lo, hexPairs rest with
    | some h, some l, some bs => some ((h * 16 + l) :: bs)
    | _, _, _ => none

/-- `hex::decode_to_slice` into a `[u8; 32]`: succeeds exactly on 64 hex
digits (the length check mirrors `decode_to_slice` requiring the input
length to be twice the output buffer). -/
def hexDecode32 (s : List Char) : Option Checksum :=
  match hexPairs s with
  | none => none
  | some l =>
    if h : l.length = 32 ∧ ∀ b ∈ l, b < 256 then some ⟨l, h.1, h.2⟩ else none

/-- `impl Display for Checksum` is not under `src/`; modelled from the
spec: "hex-encoding (uppercase)" — the stored checksum strings are the
uppercase hex of the 32 bytes. -/
def Checksum.toHexString (c : Checksum) : String :=
  String.mk (hexEncodeUpper c.bytes)

theorem hexDigitVal_hexUpperChar {n : Nat} (h : n < 16) :
    hexDigitVal (hexUpperChar n) = some n := by
  interval_cases n <;> decide

theorem hexEncodeUpper_cons (b : Nat) (bs : List Nat) :
    hexEncodeUpper (b :: bs) =
      hexUpperChar (b / 16) :: hexUpperChar (b % 16) :: hexEncodeUpper bs := by
  simp [hexEncodeUpper]

theorem hexPairs_encode : ∀ (bs : List Nat), (∀ b ∈ bs, b < 256) →
    hexPairs (hexEncodeUpper bs) = some bs
  | [], _ => rfl
  | b :: bs, h => by
      have hb : b < 256 := h b (by simp)
      have hhi : b / 16 < 16 := by omega
      have hlo : b % 16 < 16 := by omega
      rw [hexEncodeUpper_cons]
      simp only [hexPairs, hexDigitVal_hexUpperChar hhi,
        hexDigitVal_hexUpperChar hlo,
        hexPairs_encode bs (fun x hx => h x (by simp [hx]))]
      have hbb : b / 16 * 16 + b % 16 = b := by omega
      simp [hbb]

theorem hexDecode32_encode (c : Checksum) :
    hexDecode32 (hexEncodeUpper c.bytes) = some c := by
  have h := hexPairs_encode c.bytes c.bounded
  simp only [hexDecode32, h]
  have hc : c.bytes.length = 32 ∧ ∀ b ∈ c.bytes, b < 256 := ⟨c.len32, c.bounded⟩
  rw [dif_pos hc]

/- ### Decimal rendering of `u64` (Rust `Display` of `u64`) and
`u64::from_str_radix(_, 10)` -/

/-- Digit char for a value below 10. -/
def decDigitChar (n : Nat) : Char := Char.ofNat (48 + n)

/-- Decimal digit chars, fuel-driven so that the recursion is structural
(and hence kernel-evaluable); the fuel is always sufficient below. -/
def natToDecimalFuel : Nat → Nat → List Char
  | 0, _ => []
  | fuel + 1, n =>
    if n < 10 then [decDigitChar n]
    else natToDecimalFuel fuel (n / 10) ++ [decDigitChar (n % 10)]

/-- Decimal digit chars of a natural number (most significant first),
modelling Rust `\x7b\x7d` formatting of a `u64`. -/
def natToDecimal (n : Nat) : List Char := natToDecimalFuel (n + 1) n

theorem natToDecimalFuel_congr : ∀ (f1 f2 n : Nat), n < f1 → n < f2 →
    natToDecimalFuel f1 n = natToDecimalFuel f2 n
  | f1 + 1, f2 + 1, n, h1, h2 => by
    rw [natToDecimalFuel, natToDecimalFuel]
    split
    · rfl
    · next h =>
      rw [natToDecimalFuel_congr f1 f2 (n / 10)
        (by omega) (by omega)]

theorem natToDecimal_eq (n : Nat) :
    natToDecimal n =
      (if n < 10 then [decDigitChar n]
       else natToDecimal (n / 10) ++ [decDigitChar (n % 10)]) := by
  show natToDecimalFuel (n + 1) n = _
  rw [natToDecimalFuel]
  split
  · rfl
  · next h =>
    rw [natToDecimalFuel_congr n (n / 10 + 1) (n / 10) (by omega) (by omega)]
    rfl

/-- Value of one decimal digit char. -/
def decDigitVal (c : Char) : Option Nat :=
  if 48 ≤ c.toNat ∧ c.toNat ≤ 57 then some (c.toNat - 48) else none

/-- `u64::from_str_radix(s, 10)`: non-empty all-digit string evaluated in
base 10, failing on overflow past `u64::MAX`. -/
def parseU64 (s : List Char) : Option Nat :=
  if s.isEmpty then none
  else
    match s.foldlM (fun acc c => (decDigitVal c).map (fun d => acc * 10 + d)) 0 with
    | none => none
    | some v => if v < 2 ^ 64 then some v else none

theorem decDigitVal_decDigitChar {n : Nat} (h : n < 10) :
    decDigitVal (decDigitChar n) = some n := by
  interval_cases n <;> decide

theorem natToDecimal_ne_nil (n : Nat) : natToDecimal n ≠ [] := by
  rw [natToDecimal_eq]
  split <;> simp

theorem foldlM_decimal (n : Nat) : ∀ (acc : Nat),
    List.foldlM (fun acc c => (decDigitVal c).map (fun d => acc * 10 + d)) acc
      (natToDecimal n) = some (acc * 10 ^ (natToDecimal n).length + n) := by
  induction n using Nat.strong_induction_on with
  | _ n ih =>
    intro acc
    rw [natToDecimal_eq]
    split
    · next h =>
      simp [List.foldlM, decDigitVal_decDigitChar h]
    · next h =>
      have hd : n / 10 < n := Nat.div_lt_self (by omega) (by omega)
      rw [List.foldlM_append]
      rw [ih (n / 10) hd acc]
      have hm : n % 10 < 10 := by omega
      have harith : (acc * 10 ^ (natToDecimal (n / 10)).length + n / 10) * 10 + n % 10 =
          acc * 10 ^ ((natToDecimal (n / 10)).length + 1) + n := by
        calc (acc * 10 ^ (natToDecimal (n / 10)).length + n / 10) * 10 + n % 10
            = acc * (10 ^ (natToDecimal (n / 10)).length * 10) +
                (10 * (n / 10) + n % 10) := by ring
          _ = acc * 10 ^ ((natToDecimal (n / 10)).length + 1) + n := by
              rw [Nat.div_add_mod, Nat.pow_succ]
      simp only [List.foldlM, decDigitVal_decDigitChar hm, Option.map_some,
        Option.bind_eq_bind, Option.some_bind, Option.pure_def,
        List.length_append, List.length_cons, List.length_nil, Nat.zero_add]
      exact congrArg some harith

theorem parseU64_natToDecimal {n : Nat} (h : n < 2 ^ 64) :
    parseU64 (natToDecimal n) = some n := by
  have hfold := foldlM_decimal n 0
  simp only [Nat.zero_mul, Nat.zero_add] at hfold
  have hne : (natToDecimal n).isEmpty = false := by
    rw [Bool.eq_false_iff]
    intro hcontra
    exact natToDecimal_ne_nil n (List.isEmpty_iff.mp hcontra)
  rw [parseU64, hne]
  simp only [Bool.false_eq_true, if_false, hfold, h, if_true]

/- ### Byte streams: UTF-8 bytes of a string, `u64::to_le_bytes` -/

/-- UTF-8 encoding of one scalar value (as `String::as_bytes` yields). -/
def charUtf8 (c : Char) : List Nat :=
  let n := c.toNat
  if n < 128 then [n]
  else if n < 2048 then [192 + n / 64, 128 + n % 64]
  else if n < 65536 then [224 + n / 4096, 128 + n / 64 % 64, 128 + n % 64]
  else [240 + n / 262144, 128 + n / 4096 % 64, 128 + n / 64 % 64, 128 + n % 64]

/-- `str::as_bytes()`: the UTF-8 bytes of a string, as `Nat`s. -/
def strBytes (s : String) : List Nat :=
  s.data.flatMap charUtf8

/-- `u64::to_le_bytes()`: 8 bytes, little-endian. -/
def le64 (t : Nat) : List Nat :=
  [t % 256, t / 256 % 256, t / 256 ^ 2 % 256, t / 256 ^ 3 % 256,
   t / 256 ^ 4 % 256, t / 256 ^ 5 % 256, t / 256 ^ 6 % 256, t / 256 ^ 7 % 256]

/- ### Manifest entry: `EDElement` (`e_d_list/e_d_element.rs`) -/

/-- `EDVariantFields`: a file carrying the content checksum, or a symbolic
link carrying the raw target string. -/
inductive EDVariantFields where
  | file (file_checksum : Checksum)
  | link (link_target : String)
  deriving DecidableEq

/-- The variant bytes fed to the element hasher: the content checksum for a
file, the UTF-8 target bytes for a link. -/
def EDVariantFields.hashBytes : EDVariantFields → List Nat
  | .file c => c.bytes
  | .link t => strBytes t

def EDVariantFields.is_link : EDVariantFields → Bool
  | .file _ => false
  | .link _ => true

/-- `EDElement`: one manifest entry.  `element_hash` is stored as a field,
exactly as in the source; the only constructors below go through
`EDElement.from_internal`, which computes it. -/
structure EDElement where
  path : String
  modified_time : Nat
  variant_fields : EDVariantFields
  element_hash : Checksum
  deriving DecidableEq

/-- `EDElement::from_internal` (`e_d_element.rs` lines 73-83): build the
entry and its element hash by feeding the hasher the path bytes, the
little-endian modified time, then the variant bytes. -/
def EDElement.from_internal (path : String) (modified_time : Nat)
    (variant_fields : EDVariantFields) : EDElement :=
  let hasher := Hasher.new
  let hasher := hasher.update (strBytes path)
  let hasher := hasher.update (le64 modified_time)
  let hasher := hasher.update variant_fields.hashBytes
  ⟨path, modified_time, variant_fields, hasher.finalize⟩

/-- `EDElement::get_hash`. -/
def EDElement.get_hash (e : EDElement) : Checksum := e.element_hash

/-- Modelled from the spec: `EDElement::update_path` is called by
`EDList::sync` but its definition is not under `src/` (the matching
revision of `e_d_element.rs` is absent); per the spec, "Mutating `path` via
Sync recomputes it [the element digest]" — it replaces the path and
recomputes the element hash from the new field values. -/
def EDElement.update_path (e : EDElement) (new_path : String) : EDElement :=
  EDElement.from_internal new_path e.modified_time e.variant_fields

/-- Single-character global replace, modelling `str::replace` with a
one-character pattern as used by `impl Display for EDElement`. -/
def replaceChar (pat : Char) (repl : List Char) : List Char → List Char
  | [] => []
  | c :: rest => (if c = pat then repl else [c]) ++ replaceChar pat repl rest

/-- Path escaping from `impl Display for EDElement` (lines 379-387):
first double every backslash, then escape every comma. -/
def escapePathChars (p : List Char) : List Char :=
  replaceChar ',' ['\\', ','] (replaceChar '\\' ['\\', '\\'] p)

/-- Link-target escaping from `impl Display`: double every backslash, then
escape every closing parenthesis. -/
def escapeLinkChars (t : List Char) : List Char :=
  replaceChar ')' ['\\', ')'] (replaceChar '\\' ['\\', '\\'] t)

/-- The variant part of the serialization: `file(<64 uppercase hex>)` or
`link(<escaped target>)`. -/
def EDVariantFields.displayChars : EDVariantFields → List Char
  | .file c => 'f' :: 'i' :: 'l' :: 'e' :: '(' :: (hexEncodeUpper c.bytes ++ [')'])
  | .link t => 'l' :: 'i' :: 'n' :: 'k' :: '(' :: (escapeLinkChars t.data ++ [')'])

/-- `impl Display for EDElement`:
`[<escaped path>,<decimal mtime>,<variant>]`. -/
def EDElement.displayChars (e : EDElement) : List Char :=
  '[' :: (escapePathChars e.path.data ++ [','] ++ natToDecimal e.modified_time
    ++ [','] ++ e.variant_fields.displayChars ++ [']'])

/-- The serialized entry line as a string. -/
def EDElement.displayString (e : EDElement) : String :=
  String.mk e.displayChars

/- ### The entry parser: `impl TryFrom<&str> for EDElement`
(`e_d_element.rs` lines 294-377).  Each loop of the source becomes a
recursive helper consuming the char stream and returning the remaining
stream. -/

/-- The path loop: unescape until an unescaped comma; `acc` is the path
built so far. -/
def parsePathLoop (acc : List Char) : List Char → Except String (List Char × List Char)
  | '\\' :: c :: rest2 => parsePathLoop (acc ++ [c]) rest2
  | ['\\'] => .error "Missing escaped char in path"
  | ',' :: rest => .ok (acc, rest)
  | c :: rest => parsePathLoop (acc ++ [c]) rest
  | [] => .error "Missing end character after file name"

/-- The modified-time loop: collect chars until a comma, then parse as
`u64`. -/
def parseTimeLoop (acc : List Char) : List Char → Except String (Nat × List Char)
  | ',' :: rest =>
    match parseU64 acc with
    | some v => .ok (v, rest)
    | none => .error "Error parsing modified time"
  | c :: rest => parseTimeLoop (acc ++ [c]) rest
  | [] => .error "Missing ending of modified time string"

/-- The link-target loop: unescape until an unescaped closing
parenthesis. -/
def parseLinkLoop (acc : List Char) : List Char → Except String (List Char × List Char)
  | '\\' :: c :: rest2 => parseLinkLoop (acc ++ [c]) rest2
  | ['\\'] => .error "Missing escaped character after backslash"
  | ')' :: rest => .ok (acc, rest)
  | c :: rest => parseLinkLoop (acc ++ [c]) rest
  | [] => .error "Missing end of link_target"

/-- The variant part: dispatch on the five-character tag `file(` or
`link(`.  (The source checks the first five *bytes*; on the ASCII tags the
two agree, and all non-matching inputs are rejected either way.) -/
def parseVariant (cs : List Char) : Except String (EDVariantFields × List Char) :=
  if cs.length < 5 then .error "EDElement was missing information about its variant"
  else match cs with
  | 'f' :: 'i' :: 'l' :: 'e' :: '(' :: rest =>
    if rest.length < 64 then .error "File hash is incomplete"
    else match hexDecode32 (rest.take 64) with
    | none => .error "Error decoding file hash"
    | some c =>
      match rest.drop 64 with
      | ')' :: rest2 => .ok (.file c, rest2)
      | _ => .error "Missing end character after file_hash"
  | 'l' :: 'i' :: 'n' :: 'k' :: '(' :: rest =>
    match parseLinkLoop [] rest with
    | .ok (target, rest2) => .ok (.link (String.mk target), rest2)
    | .error e => .error e
  | _ => .error "Invalid variant_string"

/-- `EDElement::try_from(&str)`: the full entry parser.  Note that after
the closing bracket the remaining characters are never examined. -/
def EDElement.tryFromChars (value : List Char) : Except String EDElement :=
  match value with
  | '[' :: afterBracket =>
    match parsePathLoop [] afterBracket with
    | .error e => .error e
    | .ok (path, afterPath) =>
      match parseTimeLoop [] afterPath with
      | .error e => .error e
      | .ok (modified_time, afterTime) =>
        match parseVariant afterTime with
        | .error e => .error e
        | .ok (variant_fields, afterVariant) =>
          match afterVariant with
          | ']' :: _ => .ok (EDElement.from_internal (String.mk path) modified_time variant_fields)
          | _ => .error "Last bracket missing from EDElement string!"
  | _ => .error "Missing start bracket"

/-- `EDElement::try_from` on a string. -/
def EDElement.tryFromString (s : String) : Except String EDElement :=
  EDElement.tryFromChars s.data

instance {ε α : Type} [DecidableEq ε] [DecidableEq α] : DecidableEq (Except ε α) := fun a b =>
  match a, b with
  | .ok x, .ok y =>
    if h : x = y then .isTrue (by rw [h]) else .isFalse (by intro hc; cases hc; exact h rfl)
  | .error x, .error y =>
    if h : x = y then .isTrue (by rw [h]) else .isFalse (by intro hc; cases hc; exact h rfl)
  | .ok _, .error _ => .isFalse (by intro hc; cases hc)
  | .error _, .ok _ => .isFalse (by intro hc; cases hc)

/- ### Parse/serialize roundtrip lemmas -/

theorem replaceChar_append (pat : Char) (repl : List Char) : ∀ (a b : List Char),
    replaceChar pat repl (a ++ b) = replaceChar pat repl a ++ replaceChar pat repl b
  | [], b => rfl
  | c :: a, b => by
    simp only [List.cons_append, replaceChar, List.append_eq,
      replaceChar_append pat repl a b, List.append_assoc]

/-- One-character view of the path escaping. -/
theorem escapePathChars_cons (c : Char) (p : List Char) :
    escapePathChars (c :: p) =
      (if c = '\\' then ['\\', '\\'] else if c = ',' then ['\\', ','] else [c])
        ++ escapePathChars p := by
  show replaceChar ',' ['\\', ','] (replaceChar '\\' ['\\', '\\'] (c :: p)) = _
  by_cases h1 : c = '\\'
  · subst h1
    simp [replaceChar, replaceChar_append, escapePathChars]
  · by_cases h2 : c = ','
    · subst h2
      simp [replaceChar, replaceChar_append, escapePathChars]
    · simp [replaceChar, replaceChar_append, escapePathChars, h1, h2]

/-- One-character view of the link-target escaping. -/
theorem escapeLinkChars_cons (c : Char) (p : List Char) :
    escapeLinkChars (c :: p) =
      (if c = '\\' then ['\\', '\\'] else if c = ')' then ['\\', ')'] else [c])
        ++ escapeLinkChars p := by
  show replaceChar ')' ['\\', ')'] (replaceChar '\\' ['\\', '\\'] (c :: p)) = _
  by_cases h1 : c = '\\'
  · subst h1
    simp [replaceChar, replaceChar_append, escapeLinkChars]
  · by_cases h2 : c = ')'
    · subst h2
      simp [replaceChar, replaceChar_append, escapeLinkChars]
    · simp [replaceChar, replaceChar_append, escapeLinkChars, h1, h2]

theorem parsePathLoop_other {c : Char} (hc1 : c ≠ '\\') (hc2 : c ≠ ',')
    (acc rest : List Char) :
    parsePathLoop acc (c :: rest) = parsePathLoop (acc ++ [c]) rest := by
  rw [parsePathLoop.eq_def]
  split <;> simp_all

theorem parsePathLoop_escape : ∀ (p : List Char) (acc rest : List Char),
    parsePathLoop acc (escapePathChars p ++ ',' :: rest) = .ok (acc ++ p, rest)
  | [], acc, rest => by
    show parsePathLoop acc (',' :: rest) = _
    simp [parsePathLoop, escapePathChars, replaceChar]
  | c :: p, acc, rest => by
    rw [escapePathChars_cons]
    by_cases h1 : c = '\\'
    · subst h1
      simp only [if_pos rfl, List.cons_append, List.append_assoc, List.nil_append]
      show parsePathLoop acc ('\\' :: '\\' :: (escapePathChars p ++ ',' :: rest)) = _
      rw [parsePathLoop]
      rw [parsePathLoop_escape p (acc ++ ['\\']) rest]
      simp
    · by_cases h2 : c = ','
      · subst h2
        simp only [if_neg h1, if_pos rfl, List.cons_append, List.append_assoc,
          List.nil_append]
        show parsePathLoop acc ('\\' :: ',' :: (escapePathChars p ++ ',' :: rest)) = _
        rw [parsePathLoop]
        rw [parsePathLoop_escape p (acc ++ [',']) rest]
        simp
      · simp only [if_neg h1, if_neg h2, List.cons_append, List.nil_append]
        rw [parsePathLoop_other h1 h2]
        rw [parsePathLoop_escape p (acc ++ [c]) rest]
        simp

theorem parseLinkLoop_other {c : Char} (hc1 : c ≠ '\\') (hc2 : c ≠ ')')
    (acc rest : List Char) :
    parseLinkLoop acc (c :: rest) = parseLinkLoop (acc ++ [c]) rest := by
  rw [parseLinkLoop.eq_def]
  split <;> simp_all

theorem parseLinkLoop_escape : ∀ (p : List Char) (acc rest : List Char),
    parseLinkLoop acc (escapeLinkChars p ++ ')' :: rest) = .ok (acc ++ p, rest)
  | [], acc, rest => by
    show parseLinkLoop acc (')' :: rest) = _
    simp [parseLinkLoop, escapeLinkChars, replaceChar]
  | c :: p, acc, rest => by
    rw [escapeLinkChars_cons]
    by_cases h1 : c = '\\'
    · subst h1
      simp only [if_pos rfl, List.cons_append, List.append_assoc, List.nil_append]
      show parseLinkLoop acc ('\\' :: '\\' :: (escapeLinkChars p ++ ')' :: rest)) = _
      rw [parseLinkLoop]
      rw [parseLinkLoop_escape p (acc ++ ['\\']) rest]
      simp
    · by_cases h2 : c = ')'
      · subst h2
        simp only [if_neg h1, if_pos rfl, List.cons_append, List.append_assoc,
          List.nil_append]
        show parseLinkLoop acc ('\\' :: ')' :: (escapeLinkChars p ++ ')' :: rest)) = _
        rw [parseLinkLoop]
        rw [parseLinkLoop_escape p (acc ++ [')']) rest]
        simp
      · simp only [if_neg h1, if_neg h2, List.cons_append, List.nil_append]
        rw [parseLinkLoop_other h1 h2]
        rw [parseLinkLoop_escape p (acc ++ [c]) rest]
        simp

theorem decDigitChar_toNat {n : Nat} (h : n < 10) :
    (decDigitChar n).toNat = 48 + n := by
  interval_cases n <;> decide

theorem natToDecimal_digits (n : Nat) :
    ∀ c ∈ natToDecimal n, 48 ≤ c.toNat ∧ c.toNat ≤ 57 := by
  induction n using Nat.strong_induction_on with
  | _ n ih =>
    rw [natToDecimal_eq]
    split
    · next h =>
      intro c hc
      simp only [List.mem_singleton] at hc
      subst hc
      rw [decDigitChar_toNat h]
      omega
    · next h =>
      intro c hc
      rw [List.mem_append] at hc
      rcases hc with hc | hc
      · exact ih (n / 10) (Nat.div_lt_self (by omega) (by omega)) c hc
      · simp only [List.mem_singleton] at hc
        subst hc
        rw [decDigitChar_toNat (by omega : n % 10 < 10)]
        omega

theorem parseTimeLoop_digits : ∀ (ds : List Char), (∀ c ∈ ds, c ≠ ',') →
    ∀ (acc rest : List Char),
    parseTimeLoop acc (ds ++ ',' :: rest) =
      (match parseU64 (acc ++ ds) with
       | some v => .ok (v, rest)
       | none => .error "Error parsing modified time")
  | [], _, acc, rest => by
    show parseTimeLoop acc (',' :: rest) = _
    simp [parseTimeLoop]
  | c :: ds, h, acc, rest => by
    have hc : c ≠ ',' := h c (by simp)
    have : parseTimeLoop acc ((c :: ds) ++ ',' :: rest) =
        parseTimeLoop (acc ++ [c]) (ds ++ ',' :: rest) := by
      rw [parseTimeLoop.eq_def]
      split
      · simp_all
      · simp_all
      · simp_all
    rw [this, parseTimeLoop_digits ds (fun x hx => h x (by simp [hx])) (acc ++ [c]) rest]
    simp

theorem length_hexEncodeUpper (bs : List Nat) :
    (hexEncodeUpper bs).length = 2 * bs.length := by
  induction bs with
  | nil => rfl
  | cons b bs ih =>
    rw [hexEncodeUpper_cons]
    simp only [List.length_cons, ih]
    omega

theorem parseVariant_file (c : Checksum) (rest : List Char) :
    parseVariant (EDVariantFields.displayChars (.file c) ++ rest) =
      .ok (.file c, rest) := by
  have hlen : (hexEncodeUpper c.bytes).length = 64 := by
    rw [length_hexEncodeUpper, c.len32]
  show parseVariant ('f' :: 'i' :: 'l' :: 'e' :: '(' ::
    ((hexEncodeUpper c.bytes ++ [')']) ++ rest)) = _
  rw [parseVariant]
  rw [if_neg (by simp)]
  have harr : (hexEncodeUpper c.bytes ++ [')']) ++ rest =
      hexEncodeUpper c.bytes ++ (')' :: rest) := by simp
  rw [harr]
  rw [if_neg (by simp [hlen])]
  rw [List.take_left' hlen, List.drop_left' hlen]
  rw [hexDecode32_encode c]
  simp

theorem parseVariant_link (t : String) (rest : List Char) :
    parseVariant (EDVariantFields.displayChars (.link t) ++ rest) =
      .ok (.link t, rest) := by
  show parseVariant ('l' :: 'i' :: 'n' :: 'k' :: '(' ::
    ((escapeLinkChars t.data ++ [')']) ++ rest)) = _
  rw [parseVariant]
  rw [if_neg (by simp)]
  have harr : (escapeLinkChars t.data ++ [')']) ++ rest =
      escapeLinkChars t.data ++ (')' :: rest) := by simp
  rw [harr]
  rw [parseLinkLoop_escape t.data [] rest]
  simp

theorem string_mk_data (s : String) : String.mk s.data = s := rfl

/-- Core roundtrip: parsing the serialization of an entry, with arbitrary
trailing characters after the closing bracket, recovers the entry. -/
theorem tryFromChars_display_append (p : String) (t : Nat) (v : EDVariantFields)
    (suffix : List Char) (ht : t < 2 ^ 64) :
    EDElement.tryFromChars ((EDElement.from_internal p t v).displayChars ++ suffix) =
      .ok (EDElement.from_internal p t v) := by
  have hshape : (EDElement.from_internal p t v).displayChars ++ suffix =
      '[' :: (escapePathChars p.data ++ ',' ::
        (natToDecimal t ++ ',' ::
          (v.displayChars ++ ']' :: suffix))) := by
    show ('[' :: (escapePathChars p.data ++ [','] ++ natToDecimal t
      ++ [','] ++ v.displayChars ++ [']'])) ++ suffix = _
    simp
  rw [hshape]
  rw [EDElement.tryFromChars]
  rw [parsePathLoop_escape p.data []]
  simp only [List.nil_append]
  have hdigits : ∀ c ∈ natToDecimal t, c ≠ ',' := by
    intro c hc hcomma
    have := natToDecimal_digits t c hc
    subst hcomma
    simp at this
  rw [parseTimeLoop_digits (natToDecimal t) hdigits []]
  simp only [List.nil_append, parseU64_natToDecimal ht]
  cases v with
  | file c =>
    rw [parseVariant_file c (']' :: suffix)]
    rfl
  | link tgt =>
    rw [parseVariant_link tgt (']' :: suffix)]
    rfl

/- ### Filesystem model for entry construction and metadata tests -/

/-- Result of `fs::symlink_metadata` on one path. -/
structure FsMeta where
  is_file : Bool
  is_dir : Bool
  modified_time : Nat

/-- The ambient filesystem, passed explicitly: `symlink_metadata`,
file contents for `File::open` + read, `fs::read_link` (already converted
to UTF-8, `none` when the conversion fails), and which paths `File::open`
succeeds on (used by the link-reachability check, which follows links). -/
structure Filesystem where
  symlink_metadata : String → Option FsMeta
  file_content : String → Option (List Nat)
  read_link : String → Option String
  open_ok : String → Bool

/-- `EDElement::hash_file`: the 40 MiB chunked reads concatenate to the
file's full byte stream, which is hashed in one pass. -/
def EDElement.hash_file (content : List Nat) : Checksum :=
  Hasher.finalize (Hasher.update Hasher.new content)

/-- `Path::parent()` for the strings this program passes (relative,
slash-separated): everything before the last slash, `""` when there is no
slash, none for the empty or root path. -/
def parentDir (path : String) : Option String :=
  if path = "" then none
  else if path = "/" then none
  else match path.data.reverse.dropWhile (fun c => c ≠ '/') with
    | [] => some ""
    | _ :: rest => some (String.mk rest.reverse)

/-- `Path::join`: an absolute right side replaces the left side. -/
def pathJoin (base target : String) : String :=
  if target.startsWith "/" then target
  else if base = "" then target
  else base ++ "/" ++ target

/-- `EDElement::verify_link_path` (lines 233-247): resolve the target
relative to the link's parent directory and require that it opens. -/
def EDElement.verify_link_path (fs : Filesystem) (path link_target : String) :
    Except String Unit :=
  match parentDir path with
  | none => .error ("Link with path " ++ path ++ " has link_target " ++ link_target
      ++ " which doesn't have a parent!")
  | some current_path =>
    if fs.open_ok (pathJoin current_path link_target) then .ok ()
    else .error ("Error opening file linked to by " ++ path)

/-- `EDElement::from_path` (lines 100-133).  A path that is neither a file
nor a symbolic link makes the source panic (documented there); the model
reaches the `read_link` lookup in that case, exactly as the source does. -/
def EDElement.from_path (fs : Filesystem) (path : String) : Except String EDElement :=
  match fs.symlink_metadata path with
  | none => .error ("Error getting metadata of path " ++ path)
  | some md =>
    if md.is_file then
      match fs.file_content path with
      | none => .error ("Error opening path " ++ path)
      | some content =>
        .ok (EDElement.from_internal path md.modified_time
          (.file (EDElement.hash_file content)))
    else
      match fs.read_link path with
      | some link_path =>
        match EDElement.verify_link_path fs path link_path with
        | .ok _ => .ok (EDElement.from_internal path md.modified_time (.link link_path))
        | .error e => .error e
      | none => .error ("link_path is not a valid utf-8 string!, path to link = " ++ path)

/-- `EDElement::test_metadata` (lines 143-154): stat must succeed, the
object must not be a directory, and the modified time must match. -/
def EDElement.test_metadata (fs : Filesystem) (e : EDElement) : Except String Unit :=
  match fs.symlink_metadata e.path with
  | none => .error ("Could not open path " ++ e.path)
  | some md =>
    if md.is_dir then .error ("Path " ++ e.path ++ " is a directory")
    else if md.modified_time ≠ e.modified_time then
      .error ("File with path " ++ e.path ++ " has a different modified time than expected")
    else .ok ()

@[simp] theorem from_internal_path (p : String) (t : Nat) (v : EDVariantFields) :
    (EDElement.from_internal p t v).path = p := rfl

@[simp] theorem from_internal_time (p : String) (t : Nat) (v : EDVariantFields) :
    (EDElement.from_internal p t v).modified_time = t := rfl

@[simp] theorem from_internal_variant (p : String) (t : Nat) (v : EDVariantFields) :
    (EDElement.from_internal p t v).variant_fields = v := rfl

theorem from_internal_hash (p : String) (t : Nat) (v : EDVariantFields) :
    (EDElement.from_internal p t v).element_hash =
      blake2Stand (strBytes p ++ le64 t ++ v.hashBytes) := by
  show Hasher.finalize (((Hasher.new.update (strBytes p)).update (le64 t)).update v.hashBytes) = _
  rw [Hasher.update_assoc, Hasher.new_update]
  show blake2Stand (Hasher.update (strBytes p) (le64 t ++ v.hashBytes)) = _
  rw [Hasher.update]
  simp [List.append_assoc]

/-- Every successful parse produces an entry built by `from_internal`. -/
theorem tryFromChars_ok_from_internal {cs : List Char} {e : EDElement}
    (h : EDElement.tryFromChars cs = .ok e) :
    ∃ p t v, e = EDElement.from_internal p t v := by
  unfold EDElement.tryFromChars at h
  split at h
  case h_2 => simp at h
  case h_1 afterBracket =>
    cases hp : parsePathLoop [] afterBracket with
    | error e1 => simp only [hp, reduceCtorEq] at h
    | ok pr =>
      obtain ⟨path, afterPath⟩ := pr
      simp only [hp] at h
      cases ht : parseTimeLoop [] afterPath with
      | error e1 => simp only [ht, reduceCtorEq] at h
      | ok pr2 =>
        obtain ⟨mt, afterTime⟩ := pr2
        simp only [ht] at h
        cases hv : parseVariant afterTime with
        | error e1 => simp only [hv, reduceCtorEq] at h
        | ok pr3 =>
          obtain ⟨vf, afterVariant⟩ := pr3
          simp only [hv] at h
          split at h
          · injection h with h2
            exact ⟨_, _, _, h2.symm⟩
          · simp at h

/-- Every successful live-path construction produces an entry built by
`from_internal`. -/
theorem from_path_ok_from_internal {fs : Filesystem} {path : String} {e : EDElement}
    (h : EDElement.from_path fs path = .ok e) :
    ∃ p t v, e = EDElement.from_internal p t v := by
  unfold EDElement.from_path at h
  split at h
  case h_1 => simp at h
  case h_2 md hmd =>
    split at h
    · cases hc : Filesystem.file_content fs path with
      | none => simp only [hc, reduceCtorEq] at h
      | some content =>
        simp only [hc] at h
        injection h with h2
        exact ⟨_, _, _, h2.symm⟩
    · cases hl : Filesystem.read_link fs path with
      | none => simp only [hl, reduceCtorEq] at h
      | some link_path =>
        simp only [hl] at h
        cases hvl : EDElement.verify_link_path fs path link_path with
        | error e1 => simp only [hvl, reduceCtorEq] at h
        | ok u =>
          simp only [hvl] at h
          injection h with h2
          exact ⟨_, _, _, h2.symm⟩

/-- C4: every entry's `element_hash` is the Blake2b digest of the path
bytes, followed by the 8-byte little-endian modified time, followed by the
variant bytes (file content checksum, or UTF-8 link target); both
`from_path` construction and manifest-line parsing recompute it from the
(parsed) fields — no stored value is trusted, as the entry line carries no
element hash at all. -/
theorem element_hash_recomputed_from_fields :
    (∀ (p : String) (t : Nat) (v : EDVariantFields),
      (EDElement.from_internal p t v).element_hash =
        blake2Stand (strBytes p ++ le64 t ++ v.hashBytes))
    ∧ (∀ (fs : Filesystem) (path : String) (e : EDElement),
        EDElement.from_path fs path = .ok e →
        e.element_hash = blake2Stand
          (strBytes e.path ++ le64 e.modified_time ++ e.variant_fields.hashBytes))
    ∧ (∀ (s : String) (e : EDElement),
        EDElement.tryFromString s = .ok e →
        e.element_hash = blake2Stand
          (strBytes e.path ++ le64 e.modified_time ++ e.variant_fields.hashBytes)) := by
  refine ⟨from_internal_hash, ?_, ?_⟩
  · intro fs path e h
    obtain ⟨p, t, v, rfl⟩ := from_path_ok_from_internal h
    simp [from_internal_hash]
  · intro s e h
    obtain ⟨p, t, v, rfl⟩ := tryFromChars_ok_from_internal h
    simp [from_internal_hash]

/-- Witness for C4 at concrete inputs: a parsed line and a live-path
construction, hypotheses discharged by evaluation. -/
theorem element_hash_recomputed_from_fields_witness :
    EDElement.tryFromString "[w,3,link(t)]" = .ok (EDElement.from_internal "w" 3 (.link "t"))
    ∧ (EDElement.from_internal "w" 3 (.link "t")).element_hash =
        blake2Stand (strBytes "w" ++ le64 3 ++ (EDVariantFields.link "t").hashBytes)
    ∧ EDElement.from_path
        ⟨fun _ => some ⟨true, false, 7⟩, fun _ => some [1, 2, 3], fun _ => none, fun _ => true⟩
        "./f" = .ok (EDElement.from_internal "./f" 7 (.file (EDElement.hash_file [1, 2, 3])))
    ∧ (EDElement.from_internal "./f" 7 (.file (EDElement.hash_file [1, 2, 3]))).element_hash =
        blake2Stand (strBytes "./f" ++ le64 7 ++
          (EDVariantFields.file (EDElement.hash_file [1, 2, 3])).hashBytes) :=
  ⟨by decide,
   element_hash_recomputed_from_fields.2.2 "[w,3,link(t)]" _ (by decide),
   by decide,
   element_hash_recomputed_from_fields.2.1
     ⟨fun _ => some ⟨true, false, 7⟩, fun _ => some [1, 2, 3], fun _ => none, fun _ => true⟩
     "./f" _ (by decide)⟩

/-- C5: parsing inverts serialization — for every entry (path free of
line feeds, `u64` modified time), `try_from` of the `Display` serialization
succeeds and returns an entry equal in every field, element hash
included. -/
theorem parse_serialize_roundtrip (p : String) (t : Nat) (v : EDVariantFields)
    (_hLF : '\n' ∉ p.data) (ht : t < 2 ^ 64) :
    EDElement.tryFromString (EDElement.from_internal p t v).displayString =
      .ok (EDElement.from_internal p t v) := by
  show EDElement.tryFromChars (EDElement.from_internal p t v).displayChars = _
  have h := tryFromChars_display_append p t v [] ht
  simpa using h

/-- Witness for C5: a path containing a comma and a backslash. -/
theorem parse_serialize_roundtrip_witness :
    '\n' ∉ ("a,\\b" : String).data ∧ (33 : Nat) < 2 ^ 64 ∧
    EDElement.tryFromString
        (EDElement.from_internal "a,\\b" 33 (.file Checksum.zero)).displayString =
      .ok (EDElement.from_internal "a,\\b" 33 (.file Checksum.zero)) :=
  ⟨by decide, by decide,
   parse_serialize_roundtrip "a,\\b" 33 (.file Checksum.zero) (by decide) (by decide)⟩

/-- C9: the parser never examines anything after the terminating bracket —
appending an arbitrary string to a serialized entry still parses, yielding
the same entry. -/
theorem parser_ignores_trailing (p : String) (t : Nat) (v : EDVariantFields)
    (suffix : String) (ht : t < 2 ^ 64) :
    EDElement.tryFromString ((EDElement.from_internal p t v).displayString ++ suffix) =
      .ok (EDElement.from_internal p t v) := by
  show EDElement.tryFromChars
    ((EDElement.from_internal p t v).displayString ++ suffix).data = _
  have hdata : ((EDElement.from_internal p t v).displayString ++ suffix).data =
      (EDElement.from_internal p t v).displayChars ++ suffix.data := rfl
  rw [hdata]
  exact tryFromChars_display_append p t v suffix.data ht

/-- Witness for C9: garbage after the closing bracket is ignored. -/
theorem parser_ignores_trailing_witness :
    (5 : Nat) < 2 ^ 64 ∧
    EDElement.tryFromString
        ((EDElement.from_internal "q" 5 (.link "z")).displayString ++ "]]trailing,junk(") =
      .ok (EDElement.from_internal "q" 5 (.link "z")) :=
  ⟨by decide, parser_ignores_trailing "q" 5 (.link "z") "]]trailing,junk(" (by decide)⟩

/- ### Path banlist trie (`path_banlist.rs`) -/

/-- `CharMapper` (`path_banlist.rs` lines 31-35): a trie node is either a
`Terminator` (this prefix bans everything below) or a map from the next
character to a deeper node.  The Rust `HashMap<char, CharMapper>` is
modelled as an association list with replace-on-insert semantics. -/
inductive CharMapper where
  | terminator
  | more (children : List (Char × CharMapper))

/-- `HashMap::get`. -/
def mapGet : List (Char × CharMapper) → Char → Option CharMapper
  | [], _ => none
  | (k, v) :: rest, c => if k = c then some v else mapGet rest c

/-- `HashMap::insert` (replacing any existing binding). -/
def mapInsert : List (Char × CharMapper) → Char → CharMapper → List (Char × CharMapper)
  | [], c, v => [(c, v)]
  | (k, w) :: rest, c, v =>
    if k = c then (c, v) :: rest else (k, w) :: mapInsert rest c v

/-- `PathBanlist::insert_to_banlist` (lines 149-183).  Returns the
`Option<CharMapper>` the Rust function returns together with the map after
the in-place mutation (Rust mutates `hashmap` through `&mut`); the
returned option is meaningful only to the recursive caller, which inserts
it over the current character. -/
def insertToBanlist : List Char → List (Char × CharMapper) →
    Option CharMapper × List (Char × CharMapper)
  | [], m => (some .terminator, m)
  | c :: cs, m =>
    match mapGet m c with
    | some (.more inner) =>
      let r := insertToBanlist cs inner
      let m2 := mapInsert m c (.more r.2)
      match r.1 with
      | some cm => (none, mapInsert m2 c cm)
      | none => (none, m2)
    | some .terminator => (none, m)
    | none =>
      let r := insertToBanlist cs []
      match r.1 with
      | some cm => (none, mapInsert m c cm)
      | none => (none, mapInsert m c (.more r.2))

/-- `PathBanlist::is_in_banlist` (lines 189-199): walk the trie character
by character; banned iff a `Terminator` is reached. -/
def isInBanlistChars : List (Char × CharMapper) → List Char → Bool
  | _, [] => false
  | m, c :: cs =>
    match mapGet m c with
    | some .terminator => true
    | some (.more inner) => isInBanlistChars inner cs
    | none => false

/-- `PathBanlist`: the root map. -/
structure PathBanlist where
  banned_paths : List (Char × CharMapper)

def PathBanlist.is_in_banlist (b : PathBanlist) (path : String) : Bool :=
  isInBanlistChars b.banned_paths path.data

/-- One banned line inserted as `PathBanlist::open` does: call
`insert_to_banlist` and ignore the returned value. -/
def PathBanlist.insertLine (m : List (Char × CharMapper)) (line : String) :
    List (Char × CharMapper) :=
  (insertToBanlist line.data m).2

/-- The trie built from a list of banned-path lines, in file order. -/
def PathBanlist.ofLines (lines : List String) : PathBanlist :=
  ⟨lines.foldl PathBanlist.insertLine []⟩

/-- `PathBanlist::new_dummy()`. -/
def PathBanlist.new_dummy : PathBanlist := ⟨[]⟩

theorem mapGet_mapInsert (c d : Char) (v : CharMapper) :
    ∀ (m : List (Char × CharMapper)),
    mapGet (mapInsert m c v) d = if c = d then some v else mapGet m d
  | [] => by
    simp only [mapInsert, mapGet]
  | (k, w) :: rest => by
    by_cases hkc : k = c
    · subst hkc
      simp only [mapInsert, if_pos rfl, mapGet]
      by_cases hkd : k = d <;> simp [hkd]
    · simp only [mapInsert, if_neg hkc, mapGet]
      by_cases hkd : k = d
      · subst hkd
        have hcd : ¬ c = k := fun hc => hkc hc.symm
        simp [hcd]
      · simp only [if_neg hkd, mapGet_mapInsert c d v rest]

theorem insertToBanlist_fst_cons (c : Char) (cs : List Char)
    (m : List (Char × CharMapper)) : (insertToBanlist (c :: cs) m).1 = none := by
  rw [insertToBanlist]
  rcases mapGet m c with _ | ⟨_ | inner⟩ <;> simp <;> split <;> simp

theorem isInBanlistChars_nil : ∀ (p : List Char), isInBanlistChars [] p = false
  | [] => rfl
  | c :: cs => by simp [isInBanlistChars, mapGet]

/-- Effect of one insertion on acceptance: after inserting a non-empty
string, a path is accepted iff it was accepted before or the inserted
string is a prefix of it.  This is the heart of C6: the subsumption abort
and the subtree replacement both preserve the accepted set. -/
theorem insert_accepts : ∀ (s : List Char), s ≠ [] →
    ∀ (m : List (Char × CharMapper)) (p : List Char),
    isInBanlistChars (insertToBanlist s m).2 p
      = (isInBanlistChars m p || s.isPrefixOf p)
  | [], hs => absurd rfl hs
  | c :: cs, _ => by
    intro m p
    rw [insertToBanlist]
    cases hg : mapGet m c with
    | some cm =>
      cases cm with
      | terminator =>
        cases p with
        | nil => simp [isInBanlistChars, List.isPrefixOf]
        | cons d ds =>
          by_cases hdc : c = d
          · subst hdc
            simp [isInBanlistChars, hg, List.isPrefixOf]
          · have : (c == d) = false := by simp [hdc]
            simp [isInBanlistChars, List.isPrefixOf, this]
      | more inner =>
        cases hcs : cs with
        | nil =>
          show isInBanlistChars (mapInsert (mapInsert m c
            (.more (insertToBanlist [] inner).2)) c .terminator) p = _
          cases p with
          | nil => simp [isInBanlistChars, List.isPrefixOf]
          | cons d ds =>
            by_cases hdc : c = d
            · subst hdc
              simp [isInBanlistChars, mapGet_mapInsert, List.isPrefixOf]
            · have hbeq : (c == d) = false := by simp [hdc]
              simp [isInBanlistChars, mapGet_mapInsert, hdc, hg, List.isPrefixOf, hbeq]
        | cons c2 cs2 =>
          have hfst := insertToBanlist_fst_cons c2 cs2 inner
          show isInBanlistChars
            (match (insertToBanlist (c2 :: cs2) inner).1 with
             | some cm => (none, mapInsert (mapInsert m c
                 (.more (insertToBanlist (c2 :: cs2) inner).2)) c cm)
             | none => (none, mapInsert m c
                 (.more (insertToBanlist (c2 :: cs2) inner).2))).2 p = _
          rw [hfst]
          cases p with
          | nil => simp [isInBanlistChars, List.isPrefixOf]
          | cons d ds =>
            by_cases hdc : c = d
            · subst hdc
              simp only [isInBanlistChars, mapGet_mapInsert, if_pos rfl, hg,
                List.isPrefixOf, if_true, beq_self_eq_true, Bool.true_and]
              rw [insert_accepts (c2 :: cs2) (by simp) inner ds]
            · have hbeq : (c == d) = false := by simp [hdc]
              simp [isInBanlistChars, mapGet_mapInsert, hdc, List.isPrefixOf, hbeq]
    | none =>
      cases hcs : cs with
      | nil =>
        show isInBanlistChars (mapInsert m c .terminator) p = _
        cases p with
        | nil => simp [isInBanlistChars, List.isPrefixOf]
        | cons d ds =>
          by_cases hdc : c = d
          · subst hdc
            simp [isInBanlistChars, mapGet_mapInsert, hg, List.isPrefixOf]
          · have hbeq : (c == d) = false := by simp [hdc]
            simp [isInBanlistChars, mapGet_mapInsert, hdc, List.isPrefixOf, hbeq]
      | cons c2 cs2 =>
        have hfst := insertToBanlist_fst_cons c2 cs2 []
        show isInBanlistChars
          (match (insertToBanlist (c2 :: cs2) []).1 with
           | some cm => (none, mapInsert m c cm)
           | none => (none, mapInsert m c
               (.more (insertToBanlist (c2 :: cs2) []).2))).2 p = _
        rw [hfst]
        cases p with
        | nil => simp [isInBanlistChars, List.isPrefixOf]
        | cons d ds =>
          by_cases hdc : c = d
          · subst hdc
            simp only [isInBanlistChars, mapGet_mapInsert, if_pos rfl, hg,
              List.isPrefixOf, if_true, beq_self_eq_true, Bool.true_and]
            rw [insert_accepts (c2 :: cs2) (by simp) ([] : List (Char × CharMapper)) ds]
            simp [isInBanlistChars_nil]
          · have hbeq : (c == d) = false := by simp [hdc]
            simp [isInBanlistChars, mapGet_mapInsert, hdc, hg, List.isPrefixOf, hbeq]

theorem ofLines_accepts : ∀ (bans : List String) (m : List (Char × CharMapper)),
    (∀ b ∈ bans, b ≠ "") → ∀ (p : List Char),
    isInBanlistChars (bans.foldl PathBanlist.insertLine m) p
      = (isInBanlistChars m p || bans.any (fun b => b.data.isPrefixOf p))
  | [], m, _, p => by simp
  | b :: bans, m, h, p => by
    have hb : b.data ≠ [] := by
      intro hd
      refine h b (by simp) ?_
      have hmk : String.mk b.data = String.mk [] := by rw [hd]
      simpa using hmk
    rw [List.foldl_cons,
      ofLines_accepts bans (PathBanlist.insertLine m b)
        (fun x hx => h x (by simp [hx])) p,
      PathBanlist.insertLine, insert_accepts b.data hb m p]
    simp [Bool.or_assoc]

theorem isInBanlistChars_append : ∀ (p : List Char) (m : List (Char × CharMapper))
    (q : List Char), isInBanlistChars m p = true → isInBanlistChars m (p ++ q) = true
  | [], m, q, h => by simp [isInBanlistChars] at h
  | c :: cs, m, q, h => by
    rw [List.cons_append]
    cases hg : mapGet m c with
    | none => rw [isInBanlistChars, hg] at h; simp at h
    | some cm =>
      cases cm with
      | terminator => simp [isInBanlistChars, hg]
      | more inner =>
        rw [isInBanlistChars, hg] at h
        rw [isInBanlistChars, hg]
        exact isInBanlistChars_append cs inner q h

/-- C6 (amended): for every finite set of *non-empty* banned-prefix
strings inserted into the trie, `is_in_banlist p` is true iff some
inserted string is a prefix of `p` (insertion subsumption and subtree
replacement preserve this); and, for any trie whatsoever, a banned path
stays banned under extension by any suffix. -/
theorem banlist_iff_inserted_prefix :
    (∀ (bans : List String), (∀ b ∈ bans, b ≠ "") → ∀ (p : String),
      ((PathBanlist.ofLines bans).is_in_banlist p = true ↔
        ∃ b ∈ bans, b.data.isPrefixOf p.data = true))
    ∧ (∀ (bl : PathBanlist) (p q : String),
        bl.is_in_banlist p = true → bl.is_in_banlist (p ++ q) = true) := by
  constructor
  · intro bans h p
    show isInBanlistChars (bans.foldl PathBanlist.insertLine []) p.data = true ↔ _
    rw [ofLines_accepts bans [] h p.data]
    simp [isInBanlistChars_nil, List.any_eq_true]
  · intro bl p q h
    exact isInBanlistChars_append p.data bl.banned_paths q.data h

/-- Witness for C6 at a concrete banlist, both hypotheses discharged by
evaluation. -/
theorem banlist_iff_inserted_prefix_witness :
    (∀ b ∈ (["ab", "c"] : List String), b ≠ "")
    ∧ ((PathBanlist.ofLines ["ab", "c"]).is_in_banlist "abz" = true ↔
        ∃ b ∈ (["ab", "c"] : List String), b.data.isPrefixOf ("abz" : String).data = true)
    ∧ (PathBanlist.ofLines ["ab", "c"]).is_in_banlist "ab" = true
    ∧ (PathBanlist.ofLines ["ab", "c"]).is_in_banlist ("ab" ++ "q") = true :=
  ⟨by decide,
   banlist_iff_inserted_prefix.1 ["ab", "c"] (by decide) "abz",
   by decide,
   banlist_iff_inserted_prefix.2 (PathBanlist.ofLines ["ab", "c"]) "ab" "q" (by decide)⟩

/-- C6 counterexample: inserting the empty string into the banlist is a
no-op — `insert_to_banlist` immediately returns `Some(Terminator)` and the
top-level caller discards the returned value — so with the empty string
(a prefix of every path) in the inserted set, `is_in_banlist` still
returns false and the claimed equivalence fails. -/
theorem banlist_empty_string_counterexample :
    ¬ ((PathBanlist.ofLines [""]).is_in_banlist "x" = true ↔
      ∃ b ∈ ([""] : List String), b.data.isPrefixOf ("x" : String).data = true) := by
  decide

/- ### The `EDList::sort` comparator (`e_d_list.rs` lines 366-401) -/

/-- `str::cmp`: Rust compares UTF-8 bytes lexicographically, which agrees
with lexicographic comparison of the scalar values. -/
def charCmp (a b : Char) : Ordering := compare a.toNat b.toNat

def strCmpList : List Char → List Char → Ordering
  | [], [] => .eq
  | [], _ :: _ => .lt
  | _ :: _, [] => .gt
  | a :: as, b :: bs =>
    match charCmp a b with
    | .eq => strCmpList as bs
    | o => o

def strCmp (a b : String) : Ordering := strCmpList a.data b.data

/-- The comparator loop of `EDList::sort`: `cmp_state` is checked only at
the top of an iteration in which both paths still have a component; when
one side runs out, the side with components left is the greater,
regardless of `cmp_state`. -/
def edCmpLoop : Ordering → List String → List String → Ordering
  | st, a :: as, b :: bs =>
    if st ≠ Ordering.eq then st else edCmpLoop (strCmp a b) as bs
  | _, _ :: _, [] => .gt
  | _, [], _ :: _ => .lt
  | st, [], [] => st

/-- `str::split` on one separator character, on the char list (splitting
an empty string yields one empty piece, as in Rust). -/
def splitCharList (sep : Char) : List Char → List (List Char)
  | [] => [[]]
  | c :: rest =>
    let r := splitCharList sep rest
    if c = sep then [] :: r
    else
      match r with
      | h :: t => (c :: h) :: t
      | [] => [[c]]

/-- `path.split('/')` of the sort comparator. -/
def pathComponents (p : String) : List String :=
  (splitCharList '/' p.data).map String.mk

/-- The comparator passed to `par_sort_unstable_by` in `EDList::sort`. -/
def edElementCmp (a b : EDElement) : Ordering :=
  edCmpLoop .eq (pathComponents a.path) (pathComponents b.path)

/-- `≤` of the sort comparator as a Bool. -/
def edLeB (a b : EDElement) : Bool :=
  match edElementCmp a b with
  | .gt => false
  | _ => true

/- Generic comparison facts. -/

theorem charCmp_eq_iff (a b : Char) : charCmp a b = .eq ↔ a = b := by
  rw [charCmp, Nat.compare_eq_eq]
  constructor
  · intro h
    exact Char.ext (UInt32.ext h)
  · intro h; rw [h]

theorem charCmp_swap (a b : Char) : charCmp b a = (charCmp a b).swap := by
  rw [charCmp, charCmp]
  rcases Nat.lt_trichotomy a.toNat b.toNat with h | h | h
  · rw [Nat.compare_eq_lt.mpr h, Nat.compare_eq_gt.mpr h]
    rfl
  · rw [h, Nat.compare_eq_eq.mpr rfl]
    rfl
  · rw [Nat.compare_eq_gt.mpr h, Nat.compare_eq_lt.mpr h]
    rfl

theorem charCmp_lt_trans {a b c : Char} (h1 : charCmp a b = .lt)
    (h2 : charCmp b c = .lt) : charCmp a c = .lt := by
  rw [charCmp, Nat.compare_eq_lt] at h1 h2 ⊢
  omega

theorem strCmpList_eq_iff : ∀ (a b : List Char), strCmpList a b = .eq ↔ a = b
  | [], [] => by simp [strCmpList]
  | [], _ :: _ => by simp [strCmpList]
  | _ :: _, [] => by simp [strCmpList]
  | a :: as, b :: bs => by
    rw [strCmpList]
    cases hc : charCmp a b with
    | eq =>
      have hab : a = b := (charCmp_eq_iff a b).mp hc
      subst hab
      simp [strCmpList_eq_iff as bs]
    | lt =>
      have : ¬ a = b := fun h => by rw [h, (charCmp_eq_iff b b).mpr rfl] at hc; cases hc
      simp [this]
    | gt =>
      have : ¬ a = b := fun h => by rw [h, (charCmp_eq_iff b b).mpr rfl] at hc; cases hc
      simp [this]

theorem strCmpList_swap : ∀ (a b : List Char), strCmpList b a = (strCmpList a b).swap
  | [], [] => rfl
  | [], _ :: _ => rfl
  | _ :: _, [] => rfl
  | a :: as, b :: bs => by
    rw [strCmpList, strCmpList, charCmp_swap a b]
    cases charCmp a b with
    | eq => exact strCmpList_swap as bs
    | lt => rfl
    | gt => rfl

theorem strCmpList_lt_trans : ∀ {a b c : List Char}, strCmpList a b = .lt →
    strCmpList b c = .lt → strCmpList a c = .lt
  | [], [], _ :: _, h1, _ => by cases h1
  | [], _ :: _, [], _, h2 => by cases h2
  | [], _ :: _, _ :: _, _, _ => rfl
  | _ :: _, [], _, h1, _ => by cases h1
  | _ :: _, _ :: _, [], _, h2 => by cases h2
  | a :: as, b :: bs, c :: cs, h1, h2 => by
    rw [strCmpList] at h1 h2 ⊢
    cases hab : charCmp a b with
    | gt => rw [hab] at h1; cases h1
    | eq =>
      have : a = b := (charCmp_eq_iff a b).mp hab
      subst this
      rw [hab] at h1
      cases hac : charCmp a c with
      | eq =>
        have : a = c := (charCmp_eq_iff a c).mp hac
        subst this
        rw [hac] at h2
        exact strCmpList_lt_trans h1 h2
      | lt => rfl
      | gt => rw [hac] at h2; cases h2
    | lt =>
      cases hbc : charCmp b c with
      | eq =>
        have : b = c := (charCmp_eq_iff b c).mp hbc
        subst this
        rw [hab]
      | lt => rw [charCmp_lt_trans hab hbc]
      | gt => rw [hbc] at h2; cases h2

theorem strCmp_eq_iff (a b : String) : strCmp a b = .eq ↔ a = b := by
  rw [strCmp, strCmpList_eq_iff]
  constructor
  · intro h
    have : String.mk a.data = String.mk b.data := by rw [h]
    simpa using this
  · intro h; rw [h]

theorem strCmp_swap (a b : String) : strCmp b a = (strCmp a b).swap :=
  strCmpList_swap a.data b.data

theorem strCmp_lt_trans {a b c : String} (h1 : strCmp a b = .lt)
    (h2 : strCmp b c = .lt) : strCmp a c = .lt :=
  strCmpList_lt_trans h1 h2

theorem edCmpLoop_cons_cons (a b : String) (as bs : List String) :
    edCmpLoop .eq (a :: as) (b :: bs) =
      (match as, bs with
       | [], [] => strCmp a b
       | [], _ :: _ => .lt
       | _ :: _, [] => .gt
       | _ :: _, _ :: _ =>
         if strCmp a b = .eq then edCmpLoop .eq as bs else strCmp a b) := by
  rw [edCmpLoop]
  simp only [ne_eq, not_true_eq_false, if_false]
  cases as with
  | nil =>
    cases bs with
    | nil => rw [edCmpLoop]
    | cons y ys => rw [edCmpLoop]
  | cons x xs =>
    cases bs with
    | nil => rw [edCmpLoop]
    | cons y ys =>
      by_cases h : strCmp a b = .eq
      · rw [h]
        show edCmpLoop .eq (x :: xs) (y :: ys) =
          if (Ordering.eq = Ordering.eq) then edCmpLoop .eq (x :: xs) (y :: ys)
          else Ordering.eq
        rw [if_pos rfl]
      · rw [edCmpLoop, if_pos (by simp [h])]
        show strCmp a b = if strCmp a b = .eq then _ else strCmp a b
        rw [if_neg h]

theorem edCmpLoop_swap : ∀ (st : Ordering) (as bs : List String),
    edCmpLoop st.swap bs as = (edCmpLoop st as bs).swap
  | st, [], [] => by rw [edCmpLoop, edCmpLoop]
  | _, [], _ :: _ => by rw [edCmpLoop, edCmpLoop]; rfl
  | _, _ :: _, [] => by rw [edCmpLoop, edCmpLoop]; rfl
  | st, a :: as, b :: bs => by
    by_cases h : st = .eq
    · subst h
      show edCmpLoop .eq (b :: bs) (a :: as) = (edCmpLoop .eq (a :: as) (b :: bs)).swap
      rw [edCmpLoop, edCmpLoop]
      simp only [ne_eq, not_true_eq_false, if_false]
      rw [strCmp_swap a b]
      exact edCmpLoop_swap (strCmp a b) as bs
    · have hsw : st.swap ≠ .eq := by
        cases st <;> simp_all [Ordering.swap]
      rw [edCmpLoop, edCmpLoop, if_pos hsw, if_pos h]

/-- The comparator orders each pair consistently: `b` compares greater
than `a` exactly when `a` compares less than `b`. -/
theorem edElementCmp_swap (a b : EDElement) :
    edElementCmp b a = (edElementCmp a b).swap := by
  rw [edElementCmp, edElementCmp]
  have h := edCmpLoop_swap .eq (pathComponents a.path) (pathComponents b.path)
  simpa using h

theorem edLeB_total (a b : EDElement) : edLeB a b = true ∨ edLeB b a = true := by
  rw [edLeB, edLeB, edElementCmp_swap a b]
  cases edElementCmp a b <;> simp [Ordering.swap]

/-- Closed form of the sort comparator: component-wise lexicographic,
except that once the first `min - 1` components agree, a length difference
decides (the longer path is greater) regardless of the last shared
component.  This is the spec-visible description of the loop. -/
def edCmpClosed : List String → List String → Ordering
  | [], [] => .eq
  | [], _ :: _ => .lt
  | _ :: _, [] => .gt
  | [a], [b] => strCmp a b
  | [_], _ :: _ :: _ => .lt
  | _ :: _ :: _, [_] => .gt
  | a :: as1 :: as2, b :: bs1 :: bs2 =>
    if strCmp a b = .eq then edCmpClosed (as1 :: as2) (bs1 :: bs2) else strCmp a b

theorem edCmpLoop_eq_closed : ∀ (as bs : List String),
    edCmpLoop .eq as bs = edCmpClosed as bs
  | [], [] => by rw [edCmpLoop, edCmpClosed]
  | [], _ :: _ => by rw [edCmpLoop, edCmpClosed]
  | _ :: _, [] => by rw [edCmpLoop, edCmpClosed]
  | a :: as, b :: bs => by
    rw [edCmpLoop_cons_cons]
    cases as with
    | nil =>
      cases bs with
      | nil => rw [edCmpClosed]
      | cons y ys => rw [edCmpClosed]
    | cons x xs =>
      cases bs with
      | nil => rw [edCmpClosed]
      | cons y ys =>
        rw [edCmpClosed]
        rw [edCmpLoop_eq_closed (x :: xs) (y :: ys)]

theorem edCmpClosed_not_gt_trans : ∀ (as bs cs : List String),
    edCmpClosed as bs ≠ .gt → edCmpClosed bs cs ≠ .gt →
    edCmpClosed as cs ≠ .gt
  | [], bs, [], _, _ => by rw [edCmpClosed]; simp
  | [], bs, _ :: _, _, _ => by rw [edCmpClosed]; simp
  | a :: as, [], cs, h1, _ => by rw [edCmpClosed] at h1; simp at h1
  | a :: as, b :: bs, [], _, h2 => by rw [edCmpClosed] at h2; simp at h2
  | [a], [b], [c], h1, h2 => by
    rw [edCmpClosed] at h1 h2 ⊢
    cases hab : strCmp a b with
    | gt => exact absurd hab h1
    | eq => rw [← (strCmp_eq_iff a b).mp hab] at h2; exact h2
    | lt =>
      cases hbc : strCmp b c with
      | gt => exact absurd hbc h2
      | eq => rw [(strCmp_eq_iff b c).mp hbc] at hab; simp [hab]
      | lt => simp [strCmp_lt_trans hab hbc]
  | [a], [b], c :: c1 :: cs2, _, _ => by rw [edCmpClosed]; simp
  | [a], b :: b1 :: bs2, [c], _, h2 => by rw [edCmpClosed] at h2; simp at h2
  | [a], b :: b1 :: bs2, c :: c1 :: cs2, _, _ => by rw [edCmpClosed]; simp
  | a :: a1 :: as2, [b], cs, h1, _ => by rw [edCmpClosed] at h1; simp at h1
  | a :: a1 :: as2, b :: b1 :: bs2, [c], _, h2 => by
    rw [edCmpClosed] at h2; simp at h2
  | a :: a1 :: as2, b :: b1 :: bs2, c :: c1 :: cs2, h1, h2 => by
    rw [edCmpClosed] at h1 h2 ⊢
    by_cases hab : strCmp a b = .eq
    · rw [if_pos hab] at h1
      rw [(strCmp_eq_iff a b).mp hab]
      by_cases hbc : strCmp b c = .eq
      · rw [if_pos hbc] at h2 ⊢
        exact edCmpClosed_not_gt_trans (a1 :: as2) (b1 :: bs2) (c1 :: cs2) h1 h2
      · rw [if_neg hbc] at h2 ⊢
        exact h2
    · rw [if_neg hab] at h1
      by_cases hbc : strCmp b c = .eq
      · rw [← (strCmp_eq_iff b c).mp hbc, if_neg hab]
        exact h1
      · rw [if_neg hbc] at h2
        have hab_lt : strCmp a b = .lt := by
          cases h : strCmp a b with
          | lt => rfl
          | eq => exact absurd h hab
          | gt => exact absurd h h1
        have hbc_lt : strCmp b c = .lt := by
          cases h : strCmp b c with
          | lt => rfl
          | eq => exact absurd h hbc
          | gt => exact absurd h h2
        have hac : strCmp a c = .lt := strCmp_lt_trans hab_lt hbc_lt
        rw [if_neg (by simp [hac]), hac]
        simp

theorem edLeB_trans (a b c : EDElement) (h1 : edLeB a b = true)
    (h2 : edLeB b c = true) : edLeB a c = true := by
  rw [edLeB] at h1 h2 ⊢
  rw [edElementCmp, edCmpLoop_eq_closed] at h1 h2 ⊢
  have hne1 : edCmpClosed (pathComponents a.path) (pathComponents b.path) ≠ .gt := by
    intro hcontra
    rw [hcontra] at h1
    simp at h1
  have hne2 : edCmpClosed (pathComponents b.path) (pathComponents c.path) ≠ .gt := by
    intro hcontra
    rw [hcontra] at h2
    simp at h2
  have hac := edCmpClosed_not_gt_trans (pathComponents a.path)
    (pathComponents b.path) (pathComponents c.path) hne1 hne2
  cases h : edCmpClosed (pathComponents a.path) (pathComponents c.path) with
  | gt => exact absurd h hac
  | eq => rfl
  | lt => rfl

/- ### A comparator-driven sort.  `EDList::sort` calls
`par_sort_unstable_by`, whose contract is: the result is a permutation of
the input that is sorted by the comparator.  Any comparison sort realizes
that contract; the model uses insertion sort so that the definition is
structural and kernel-evaluable. -/

def insertSorted {α : Type} (le : α → α → Bool) (a : α) : List α → List α
  | [] => [a]
  | b :: l => if le a b then a :: b :: l else b :: insertSorted le a l

def sortByLe {α : Type} (le : α → α → Bool) : List α → List α
  | [] => []
  | a :: l => insertSorted le a (sortByLe le l)

theorem perm_insertSorted {α : Type} (le : α → α → Bool) (a : α) :
    ∀ (l : List α), List.Perm (insertSorted le a l) (a :: l)
  | [] => by simp [insertSorted]
  | b :: l => by
    rw [insertSorted]
    by_cases hab : le a b = true
    · rw [if_pos hab]
    · rw [if_neg hab]
      exact List.Perm.trans (List.Perm.cons b (perm_insertSorted le a l))
        (List.Perm.swap a b l)

theorem perm_sortByLe {α : Type} (le : α → α → Bool) :
    ∀ (l : List α), List.Perm (sortByLe le l) l
  | [] => by simp [sortByLe]
  | a :: l => by
    rw [sortByLe]
    exact List.Perm.trans (perm_insertSorted le a (sortByLe le l))
      (List.Perm.cons a (perm_sortByLe le l))

theorem pairwise_insertSorted {α : Type} (le : α → α → Bool)
    (htot : ∀ x y, le x y = true ∨ le y x = true)
    (htrans : ∀ x y z, le x y = true → le y z = true → le x z = true) (a : α) :
    ∀ (l : List α), l.Pairwise (fun x y => le x y = true) →
      (insertSorted le a l).Pairwise (fun x y => le x y = true)
  | [], _ => by simp [insertSorted]
  | b :: l, hp => by
    rw [insertSorted]
    obtain ⟨hbl, hlp⟩ := List.pairwise_cons.mp hp
    by_cases hab : le a b = true
    · rw [if_pos hab]
      refine List.pairwise_cons.mpr ⟨?_, hp⟩
      intro x hx
      rcases List.mem_cons.mp hx with rfl | hx
      · exact hab
      · exact htrans a b x hab (hbl x hx)
    · rw [if_neg hab]
      have hba := (htot a b).resolve_left hab
      refine List.pairwise_cons.mpr ⟨?_, pairwise_insertSorted le htot htrans a l hlp⟩
      intro x hx
      have hmem := (perm_insertSorted le a l).mem_iff.mp hx
      rcases List.mem_cons.mp hmem with rfl | hx2
      · exact hba
      · exact hbl x hx2

theorem pairwise_sortByLe {α : Type} (le : α → α → Bool)
    (htot : ∀ x y, le x y = true ∨ le y x = true)
    (htrans : ∀ x y z, le x y = true → le y z = true → le x z = true) :
    ∀ (l : List α), (sortByLe le l).Pairwise (fun x y => le x y = true)
  | [] => by simp [sortByLe]
  | a :: l => by
    rw [sortByLe]
    exact pairwise_insertSorted le htot htrans a (sortByLe le l)
      (pairwise_sortByLe le htot htrans l)

/- ### The manifest store: `EDList` (`e_d_list.rs`) -/

def EDElement.get_path (e : EDElement) : String := e.path

def EDElement.get_modified_time (e : EDElement) : Nat := e.modified_time

def EDElement.get_variant (e : EDElement) : EDVariantFields := e.variant_fields

/-- `EDElement::take_path`. -/
def EDElement.take_path (e : EDElement) : String := e.path

/- Constants from `shared/constants` (`src/src/core/constants.rs` in the
repository shows the same values used by this revision). -/

def LIST_VERSION_PRE : String := "LISTVERSION = "

def XOR_CHECKSUM_PRE : String := "XORCHECKSUM = "

def FIN_CHECKSUM_PRE : String := "CHECKSUM = "

def CURRENT_LIST_VERSION : String := "1.1"

/-- `str::strip_prefix`, char-exact. -/
def stripPre (pre s : String) : Option String :=
  if pre.data.isPrefixOf s.data then some (String.mk (s.data.drop pre.data.length))
  else none

/-- `EDList` (`e_d_list.rs` lines 92-98). -/
structure EDList where
  element_list : List EDElement
  banlist : PathBanlist
  xor_checksum : Checksum
  root_path : String

/-- `EDList::new` (lines 200-203). -/
def EDList.new (root_path : String) (banlist : PathBanlist)
    (element_list : List EDElement) (xor_checksum : Checksum) : EDList :=
  ⟨element_list, banlist, xor_checksum, root_path⟩

/-- `EDList::add_e_d_element` (lines 509-512): the only sanctioned way to
add an element — XOR its hash into the fold, push it at the end. -/
def EDList.add_e_d_element (st : EDList) (element : EDElement) : EDList :=
  { st with
    xor_checksum := st.xor_checksum.xor element.get_hash,
    element_list := st.element_list ++ [element] }

/-- XOR fold of the element hashes of a list, from the given start. -/
def xorFoldFrom (init : Checksum) (l : List EDElement) : Checksum :=
  l.foldl (fun acc e => acc.xor e.get_hash) init

/-- The fold of a whole list, started from zero, as `open` computes it. -/
def xorFold (l : List EDElement) : Checksum := xorFoldFrom Checksum.zero l

inductive ListVersion where
  | v1_0
  | v1_1
  | missingIdentifier
  | invalidVersion (s : String)

/-- `EDList::get_version_from_line` (lines 497-504). -/
def EDList.get_version_from_line (line : String) : ListVersion :=
  match stripPre LIST_VERSION_PRE line with
  | some v =>
    if v = "1.1" then .v1_1
    else if v = "1.0" then .v1_0
    else .invalidVersion v
  | none => .missingIdentifier

inductive UnsupportedEDListVersion where
  | invalid (s : String)
  | v1_0
  | missingIdentifier
  deriving DecidableEq

/-- `EDListOpenError` (`e_d_list/errors.rs`); the I/O-only variants are
not represented because the model receives the file's lines directly. -/
inductive EDListOpenError where
  | couldNotOpenFileHashesFile
  | checksumsMissingError
  | unsupportedEDListVersion (v : UnsupportedEDListVersion)
  | invalidXorChecksum
  | undecodableXorChecksum
  | invalidFinChecksum
  | eDElementParseError (msg : String) (index : Nat)
  | xorChecksumMismatch
  | finChecksumMismatch
  deriving DecidableEq

/-- Parsing of the `XORCHECKSUM = ` line in `EDList::open` (lines
149-156): strip the prefix, hex-decode into a 32-byte buffer. -/
def parseXorLine (line : String) : Except EDListOpenError Checksum :=
  match stripPre XOR_CHECKSUM_PRE line with
  | some hx =>
    match hexDecode32 hx.data with
    | some c => .ok c
    | none => .error .undecodableXorChecksum
  | none => .error .invalidXorChecksum

/-- Entry parsing in `EDList::open` (lines 164-169): each remaining line
through `EDElement::try_from`, errors tagged with the zero-based index. -/
def parseElementLines (lines : List String) : Except EDListOpenError (List EDElement) :=
  lines.enum.mapM (fun p =>
    match EDElement.tryFromString p.2 with
    | .ok e => .ok e
    | .error msg => .error (EDListOpenError.eDElementParseError msg p.1))

/-- Checksum verification and store construction in `EDList::open` (lines
171-197): fold and final hash computed from the parsed entries, the store
built with the *file's* xor checksum, then both comparisons. -/
def openParsed (root_path : String) (banlist : PathBanlist)
    (file_xor_checksum : Checksum) (file_final_checksum : String)
    (e_d_elements : List EDElement) : Except EDListOpenError EDList :=
  let xor_checksum := e_d_elements.foldl (fun acc e => acc.xor e.get_hash) Checksum.zero
  let hasher := e_d_elements.foldl (fun h e => Hasher.update h e.get_hash.bytes) Hasher.new
  let final_checksum := Hasher.finalize (hasher.update file_xor_checksum.bytes)
  let e_d_list := EDList.new root_path banlist e_d_elements file_xor_checksum
  if e_d_list.xor_checksum ≠ xor_checksum then .error .xorChecksumMismatch
  else if file_final_checksum ≠ final_checksum.toHexString then .error .finChecksumMismatch
  else .ok e_d_list

/-- `EDList::open` (lines 109-198) on the lines of the `file_hashes`
file.  The "file could not be opened / create new" interactive path and
the backup write are I/O and are modelled separately (`EDList.new` with an
empty list is the created-empty store). -/
def EDList.openFromLines (root_path : String) (banlist : PathBanlist) :
    List String → Except EDListOpenError EDList
  | version_line :: xor_checksum_line :: fin_checksum_line :: rest =>
    match EDList.get_version_from_line version_line with
    | .v1_1 =>
      match parseXorLine xor_checksum_line with
      | .error e => .error e
      | .ok file_xor_checksum =>
        match stripPre FIN_CHECKSUM_PRE fin_checksum_line with
        | none => .error .invalidFinChecksum
        | some file_final_checksum =>
          match parseElementLines rest with
          | .error e => .error e
          | .ok e_d_elements =>
            openParsed root_path banlist file_xor_checksum file_final_checksum e_d_elements
    | .v1_0 => .error (.unsupportedEDListVersion .v1_0)
    | .missingIdentifier => .error (.unsupportedEDListVersion .missingIdentifier)
    | .invalidVersion s => .error (.unsupportedEDListVersion (.invalid s))
  | _ => .error .checksumsMissingError

/-- `EDList::write_edlist_to_file` (lines 534-557) as the lines written:
three headers (version, xor fold of the store — never recomputed — and the
final checksum over element hashes then the fold), then the serialized
entries. -/
def EDList.write_edlist_lines (st : EDList) : List String :=
  let hasher := st.element_list.foldl (fun h e => Hasher.update h e.get_hash.bytes) Hasher.new
  let fin := Hasher.finalize (hasher.update st.xor_checksum.bytes)
  [LIST_VERSION_PRE ++ CURRENT_LIST_VERSION,
   XOR_CHECKSUM_PRE ++ String.mk (hexEncodeUpper st.xor_checksum.bytes),
   FIN_CHECKSUM_PRE ++ fin.toHexString]
  ++ st.element_list.map EDElement.displayString

/-- `EDList::sort` (lines 366-401): sort the element list by the
component comparator; `par_sort_unstable_by` yields a sorted permutation,
realized here by a comparison sort. -/
def EDList.sortED (st : EDList) : EDList :=
  { st with element_list := sortByLe edLeB st.element_list }

/-- `internal_relative_checksum` (lines 580-596): over entries whose path
has the given prefix, hash the prefix-stripped path, the little-endian
mtime and the variant bytes, in entry order; `None` when no entry matched
and the caller required at least one. -/
def EDList.internal_relative_checksum (st : EDList) (relative_path : String)
    (no_elements_allowed : Bool) : Option Checksum :=
  let matched := st.element_list.filterMap
    (fun e => (stripPre relative_path e.path).map (fun post => (e, post)))
  let hasher := matched.foldl
    (fun h pr =>
      ((h.update (strBytes pr.2)).update (le64 pr.1.get_modified_time)).update
        pr.1.get_variant.hashBytes)
    Hasher.new
  if matched.isEmpty = false ∨ no_elements_allowed then some (Hasher.finalize hasher)
  else none

/-- `internal_negated_relative_checksum` (lines 598-612): over entries
whose path does *not* have the prefix, hash the full path, mtime and
variant bytes in entry order. -/
def EDList.internal_negated_relative_checksum (st : EDList)
    (relative_path : String) : Checksum :=
  let matched := st.element_list.filter (fun e => (stripPre relative_path e.path).isNone)
  Hasher.finalize (matched.foldl
    (fun h e =>
      ((h.update (strBytes e.path)).update (le64 e.get_modified_time)).update
        e.get_variant.hashBytes)
    Hasher.new)

/- ### Operator answers (`shared/interfacer.rs`) -/

inductive YesNo where
  | yes
  | no
  deriving DecidableEq

inductive YesNoAuto where
  | once (v : YesNo)
  | continued (v : YesNo)
  deriving DecidableEq

/-- `YesNoAuto::get_yesno_val`. -/
def YesNoAuto.get_yesno_val : YesNoAuto → YesNo
  | .once v => v
  | .continued v => v

/- ### `EDList::create` (lines 336-363) -/

/-- The directory walk's result is passed in (`index` is I/O and its order
comes from the OS); already-present paths are filtered out, the rest are
hashed via `from_path`; successes are added through `add_e_d_element`,
per-path failures are collected, not fatal. -/
def EDList.create (st : EDList) (fs : Filesystem) (indexed : List String) :
    EDList × List String :=
  let existing := st.element_list.map (fun e => e.get_path)
  let pending := indexed.filter (fun p => !existing.contains p)
  pending.foldl
    (fun (acc : EDList × List String) p =>
      match EDElement.from_path fs p with
      | .ok e => (acc.1.add_e_d_element e, acc.2)
      | .error err => (acc.1, acc.2 ++ [err]))
    (st, [])

/- ### `EDList::delete` (lines 258-324) -/

/-- The loop state of `delete`: the retained list, the live fold, the
deleted-path log for the final summary, the pinned `Continued` answer and
the number of prompts issued so far. -/
structure DeleteState where
  new_list : List EDElement
  xor_checksum : Checksum
  deleted_paths : List String
  auto_action : Option YesNo
  prompt_count : Nat

/-- The answer used for a flagged element: the pinned `Continued` value if
any, else the operator's next answer, pinning it when it is `Continued`;
also yields the updated pin and prompt counter. -/
def deleteAnswer (answers : Nat → YesNoAuto) (auto : Option YesNo) (count : Nat) :
    YesNo × Option YesNo × Nat :=
  match auto with
  | some v => (v, auto, count)
  | none =>
    let ans := answers count
    (ans.get_yesno_val,
     match ans with
     | .continued v => some v
     | .once _ => none,
     count + 1)

/-- One iteration of the `delete` loop (lines 273-305): a banned path is
flagged without checking metadata; otherwise `test_metadata` decides; on a
flagged element the operator is consulted (unless a `Continued` answer is
pinned); Yes deletes — XOR the hash out of the fold, log the path — and No
retains. -/
def deleteStep (banlist : PathBanlist) (fs : Filesystem) (answers : Nat → YesNoAuto)
    (st : DeleteState) (e : EDElement) : DeleteState :=
  let err : Option String :=
    if banlist.is_in_banlist e.get_path then
      some ("Path " ++ e.get_path ++ " is in the banlist")
    else
      match e.test_metadata fs with
      | .error msg => some msg
      | .ok _ => none
  match err with
  | none => { st with new_list := st.new_list ++ [e] }
  | some _ =>
    match deleteAnswer answers st.auto_action st.prompt_count with
    | (.yes, auto2, count2) =>
      { st with
        xor_checksum := st.xor_checksum.xor e.get_hash,
        deleted_paths := st.deleted_paths ++ [e.take_path],
        auto_action := auto2,
        prompt_count := count2 }
    | (.no, auto2, count2) =>
      { st with
        new_list := st.new_list ++ [e],
        auto_action := auto2,
        prompt_count := count2 }

/-- `EDList::delete`: run the loop over the element list; the returned
string list is the deleted-path summary sent to the operator (lines
311-323 print exactly these paths). -/
def EDList.delete (st : EDList) (fs : Filesystem) (answers : Nat → YesNoAuto) :
    EDList × List String :=
  let final := st.element_list.foldl (deleteStep st.banlist fs answers)
    ⟨[], st.xor_checksum, [], none, 0⟩
  ({ st with element_list := final.new_list, xor_checksum := final.xor_checksum },
   final.deleted_paths)

/- ### `EDList::sync` (lines 713-852) -/

/-- `FileOperation` (lines 52-57). -/
inductive FileOperation where
  | delete (path : String)
  | move (source target : String)
  | copy (source target : String)
  deriving DecidableEq

/-- `SyncFromError`, restricted to the variants the pure planning phase
can produce. -/
inductive SyncFromError where
  | userAbort
  | checksumValidationError
  deriving DecidableEq

/-- Modelled from the spec: the `TMPCOPYDIR` constant is referenced by
`sync` but its definition is not under `src/`; the spec names it as an
implementation-chosen staging-directory constant, e.g.
`./file_hasher_files/tmp_sync/`. -/
def TMPCOPYDIR : String := "./file_hasher_files/tmp_sync/"

def assocGet {κ ν : Type} [DecidableEq κ] : List (κ × ν) → κ → Option ν
  | [], _ => none
  | (k, v) :: rest, key => if k = key then some v else assocGet rest key

def assocSet {κ ν : Type} [DecidableEq κ] : List (κ × ν) → κ → ν → List (κ × ν)
  | [], key, v => [(key, v)]
  | (k, w) :: rest, key, v =>
    if k = key then (key, v) :: rest else (k, w) :: assocSet rest key v

/-- `Vec::drain_filter(..).next()`: remove and return the first element
satisfying the predicate. -/
def extractFirst {α : Type} (p : α → Bool) : List α → Option (α × List α)
  | [] => none
  | x :: xs =>
    if p x then some (x, xs)
    else (extractFirst p xs).map (fun r => (r.1, x :: r.2))

/-- `Vec::pop`: remove and return the last element. -/
def splitLast {α : Type} : List α → Option (List α × α)
  | [] => none
  | [x] => some ([], x)
  | x :: y :: xs => (splitLast (y :: xs)).map (fun r => (x :: r.1, r.2))

/-- The state of sync's planning loop: the store being rebuilt, the
multimap of set-aside target entries keyed by `(variant, modified_time)`,
and the two phases of the plan. -/
structure SyncPlanState where
  store : EDList
  map : List ((EDVariantFields × Nat) × List EDElement)
  pre_ops : List FileOperation
  post_ops : List FileOperation
  files_moved : Bool

/-- One iteration of sync's planning loop (lines 769-810): reclaim an
exact `(variant, mtime, suffix)` match unchanged; otherwise rename an
entry with matching `(variant, mtime)` through the temp area (updating its
path, which recomputes its hash); otherwise plan a copy from the source
tree. -/
def syncPlanStep (source_folder_path syncFromPre syncToPre : String)
    (st : SyncPlanState) (source_element : EDElement) : SyncPlanState :=
  let s := (stripPre syncFromPre source_element.get_path).getD ""
  let key := (source_element.get_variant, source_element.get_modified_time)
  let existing := (assocGet st.map key).getD []
  match extractFirst (fun ex => decide (stripPre syncToPre ex.get_path = some s)) existing with
  | some (exactMatch, remaining) =>
    { st with
      store := st.store.add_e_d_element exactMatch,
      map := assocSet st.map key remaining }
  | none =>
    let dest := syncToPre ++ s
    match splitLast existing with
    | some (remaining, ex) =>
      { st with
        store := st.store.add_e_d_element (ex.update_path dest),
        map := assocSet st.map key remaining,
        pre_ops := st.pre_ops ++ [.move ex.get_path (TMPCOPYDIR ++ s)],
        post_ops := st.post_ops ++ [.move (TMPCOPYDIR ++ s) dest],
        files_moved := true }
    | none =>
      { st with
        store := st.store.add_e_d_element (source_element.update_path dest),
        post_ops := st.post_ops ++
          [.copy (source_folder_path ++ source_element.get_path) dest] }

/-- The post-planning tail of `sync` (lines 817-839): checksum validation,
then the plan confirmation with snapshot restore on denial.  Note the
`ChecksumValidationError` return leaves the store in its post-planning
state — only the operator-denial branch restores the snapshot. -/
def syncValidationStep (source_relative_checksum target_relative_checksum
    new_target_negated target_negated : Checksum) (planned : EDList)
    (backup_list : List EDElement) (backup_xor : Checksum) (approve : YesNo) :
    EDList × Except SyncFromError Unit :=
  if source_relative_checksum ≠ target_relative_checksum ∨
      new_target_negated ≠ target_negated then
    (planned, .error .checksumValidationError)
  else if approve = .no then
    ({ planned with element_list := backup_list, xor_checksum := backup_xor },
     .error .userAbort)
  else (planned, .ok ())

/-- `EDList::sync`: the complete in-memory phase — snapshot, partition
(XOR-ing removed entries out of the fold), multimap indexing, planning,
leftover deletions, checksum validation, confirmation.  The filesystem
execution (`do_file_operations`, lines 643-709) happens strictly after the
`.ok` return, so an error return means no filesystem operation ran.
`source` is the externally opened manifest; `confirm` answers the initial
"Is this ok?" prompt and `approve` the final plan confirmation. -/
def EDList.sync (st : EDList) (source : EDList) (source_folder_path : String)
    (syncToPre syncFromPre : String) (confirm approve : YesNo) :
    EDList × Except SyncFromError (List FileOperation × List FileOperation) :=
  if confirm = .no then (st, .error .userAbort)
  else
    let backup_list := st.element_list
    let backup_xor := st.xor_checksum
    let source_relative_checksum :=
      (source.internal_relative_checksum syncFromPre true).getD Checksum.zero
    let target_negated := st.internal_negated_relative_checksum syncToPre
    let keep := st.element_list.filter (fun e => (stripPre syncToPre e.get_path).isNone)
    let under := st.element_list.filter (fun e => (stripPre syncToPre e.get_path).isSome)
    let xor1 := under.foldl (fun x e => x.xor e.get_hash) st.xor_checksum
    let st1 : EDList := { st with element_list := keep, xor_checksum := xor1 }
    let map0 := under.foldl
      (fun m e =>
        assocSet m (e.get_variant, e.get_modified_time)
          (((assocGet m (e.get_variant, e.get_modified_time)).getD []) ++ [e]))
      ([] : List ((EDVariantFields × Nat) × List EDElement))
    let source_under := source.element_list.filter
      (fun e => (stripPre syncFromPre e.get_path).isSome)
    let planned := source_under.foldl
      (syncPlanStep source_folder_path syncFromPre syncToPre)
      ⟨st1, map0, [], [], false⟩
    let leftovers := planned.map.flatMap (fun kv => kv.2)
    let pre_ops := planned.pre_ops ++ leftovers.map (fun e => FileOperation.delete e.take_path)
    let target_relative_checksum :=
      (planned.store.internal_relative_checksum syncToPre true).getD Checksum.zero
    let new_negated := planned.store.internal_negated_relative_checksum syncToPre
    match syncValidationStep source_relative_checksum target_relative_checksum
        new_negated target_negated planned.store backup_list backup_xor approve with
    | (final, .error e) => (final, .error e)
    | (final, .ok _) => (final, .ok (pre_ops, planned.post_ops))

/- ### XOR-fold algebra over element lists -/

theorem xorFoldFrom_cons (init : Checksum) (e : EDElement) (l : List EDElement) :
    xorFoldFrom init (e :: l) = xorFoldFrom (init.xor e.get_hash) l := rfl

theorem xorFoldFrom_append (init : Checksum) (l1 l2 : List EDElement) :
    xorFoldFrom init (l1 ++ l2) = xorFoldFrom (xorFoldFrom init l1) l2 := by
  simp [xorFoldFrom, List.foldl_append]

theorem xorFoldFrom_xor_right : ∀ (l : List EDElement) (a b : Checksum),
    xorFoldFrom (a.xor b) l = (xorFoldFrom a l).xor b
  | [], a, b => rfl
  | e :: l, a, b => by
    rw [xorFoldFrom_cons, xorFoldFrom_cons]
    rw [Checksum.xor_assoc, Checksum.xor_comm b, ← Checksum.xor_assoc]
    exact xorFoldFrom_xor_right l (a.xor e.get_hash) b

theorem xor_left_comm (a b c : Checksum) :
    a.xor (b.xor c) = b.xor (a.xor c) := by
  rw [← Checksum.xor_assoc, Checksum.xor_comm a b, Checksum.xor_assoc]

theorem xorFoldFrom_eq_xor (init : Checksum) (l : List EDElement) :
    xorFoldFrom init l = init.xor (xorFold l) := by
  induction l generalizing init with
  | nil => simp [xorFoldFrom, xorFold, Checksum.xor_zero]
  | cons e l ih =>
    rw [xorFoldFrom_cons, ih]
    have hr : xorFold (e :: l) = e.get_hash.xor (xorFold l) := by
      rw [xorFold, xorFoldFrom_cons, Checksum.zero_xor, ih]
    rw [hr, ← Checksum.xor_assoc]

theorem xorFold_append (l1 l2 : List EDElement) :
    xorFold (l1 ++ l2) = (xorFold l1).xor (xorFold l2) := by
  rw [xorFold, xorFoldFrom_append, xorFoldFrom_eq_xor]
  rfl

theorem xorFold_filter_split (p : EDElement → Bool) : ∀ (l : List EDElement),
    xorFold l = (xorFold (l.filter p)).xor (xorFold (l.filter (fun e => !p e)))
  | [] => by simp [xorFold, xorFoldFrom, Checksum.xor_zero]
  | e :: l => by
    have hcons : xorFold (e :: l) = e.get_hash.xor (xorFold l) := by
      rw [xorFold, xorFoldFrom_cons, Checksum.zero_xor, xorFoldFrom_eq_xor]
    by_cases hp : p e = true
    · rw [hcons, xorFold_filter_split p l]
      have h1 : (e :: l).filter p = e :: l.filter p := by simp [List.filter, hp]
      have h2 : (e :: l).filter (fun x => !p x) = l.filter (fun x => !p x) := by
        simp [List.filter, hp]
      rw [h1, h2]
      have : xorFold (e :: l.filter p) = e.get_hash.xor (xorFold (l.filter p)) := by
        rw [xorFold, xorFoldFrom_cons, Checksum.zero_xor, xorFoldFrom_eq_xor]
      rw [this, Checksum.xor_assoc]
    · have hp2 : p e = false := by simpa using hp
      rw [hcons, xorFold_filter_split p l]
      have h1 : (e :: l).filter p = l.filter p := by simp [List.filter, hp2]
      have h2 : (e :: l).filter (fun x => !p x) = e :: l.filter (fun x => !p x) := by
        simp [List.filter, hp2]
      rw [h1, h2]
      have : xorFold (e :: l.filter (fun x => !p x)) =
          e.get_hash.xor (xorFold (l.filter (fun x => !p x))) := by
        rw [xorFold, xorFoldFrom_cons, Checksum.zero_xor, xorFoldFrom_eq_xor]
      rw [this]
      simp [Checksum.xor_comm, Checksum.xor_assoc, xor_left_comm]

/-- Permutation invariance of the fold (C10's reordering fact and the
`sort` preservation argument). -/
instance : RightCommutative (fun (acc : Checksum) (e : EDElement) => acc.xor e.get_hash) :=
  ⟨fun b x y => by
    show (b.xor x.get_hash).xor y.get_hash = (b.xor y.get_hash).xor x.get_hash
    rw [Checksum.xor_assoc, Checksum.xor_comm x.get_hash, ← Checksum.xor_assoc]⟩

theorem xorFold_perm {l1 l2 : List EDElement} (h : List.Perm l1 l2) :
    xorFold l1 = xorFold l2 :=
  List.Perm.foldl_eq h Checksum.zero

/-- The store invariant: the live fold equals the XOR of the element
hashes of the list. -/
def EDList.inv (st : EDList) : Prop := st.xor_checksum = xorFold st.element_list

theorem inv_new_empty (root : String) (bl : PathBanlist) :
    (EDList.new root bl [] Checksum.zero).inv := rfl

theorem xorFold_singleton (e : EDElement) : xorFold [e] = e.get_hash := by
  rw [xorFold, xorFoldFrom_cons, Checksum.zero_xor]
  rfl

theorem inv_add_e_d_element {st : EDList} (h : st.inv) (e : EDElement) :
    (st.add_e_d_element e).inv := by
  rw [EDList.inv] at *
  show st.xor_checksum.xor e.get_hash = xorFold (st.element_list ++ [e])
  rw [xorFold_append, h, xorFold_singleton]

theorem inv_openFromLines {root : String} {bl : PathBanlist} {lines : List String}
    {st : EDList} (h : EDList.openFromLines root bl lines = .ok st) : st.inv := by
  match lines with
  | [] => simp [EDList.openFromLines] at h
  | [_] => simp [EDList.openFromLines] at h
  | [_, _] => simp [EDList.openFromLines] at h
  | v :: x :: f :: rest =>
    rw [EDList.openFromLines] at h
    cases hv : EDList.get_version_from_line v with
    | v1_1 =>
      rw [hv] at h
      cases hx : parseXorLine x with
      | error e1 => simp [hx] at h
      | ok xc =>
        rw [hx] at h
        cases hf : stripPre FIN_CHECKSUM_PRE f with
        | none => simp [hf] at h
        | some finHex =>
          rw [hf] at h
          cases he : parseElementLines rest with
          | error e1 => simp [he] at h
          | ok es =>
            rw [he] at h
            simp only [openParsed] at h
            split at h
            · simp at h
            · next hxeq =>
              split at h
              · simp at h
              · simp only [Except.ok.injEq] at h
                subst h
                have hxeq2 : xc = es.foldl (fun acc e => acc.xor e.get_hash)
                    Checksum.zero := by
                  by_contra hcontra
                  exact hxeq hcontra
                rw [EDList.inv]
                show xc = xorFold es
                rw [hxeq2]
                rfl
    | v1_0 => rw [hv] at h; simp at h
    | missingIdentifier => rw [hv] at h; simp at h
    | invalidVersion s => rw [hv] at h; simp at h

theorem Checksum.eq_of_xor_eq_zero {a b : Checksum} (h : a.xor b = Checksum.zero) :
    a = b := by
  have h2 : (a.xor b).xor b = Checksum.zero.xor b := by rw [h]
  rw [Checksum.xor_cancel_right, Checksum.zero_xor] at h2
  exact h2

/-- Tracking quantity for the `delete` loop: the live fold XOR the fold of
the retained list; every iteration XORs exactly the current element's hash
into it, whether the element is kept or deleted. -/
def deleteI (d : DeleteState) : Checksum := d.xor_checksum.xor (xorFold d.new_list)

theorem xorFold_snoc (l : List EDElement) (e : EDElement) :
    xorFold (l ++ [e]) = (xorFold l).xor e.get_hash := by
  rw [xorFold_append, xorFold_singleton]

theorem deleteStep_I (bl : PathBanlist) (fs : Filesystem) (ans : Nat → YesNoAuto)
    (d : DeleteState) (e : EDElement) :
    deleteI (deleteStep bl fs ans d e) = (deleteI d).xor e.get_hash := by
  rw [deleteStep]
  split
  · rw [deleteI, deleteI]
    show d.xor_checksum.xor (xorFold (d.new_list ++ [e])) = _
    rw [xorFold_snoc, ← Checksum.xor_assoc]
  · split
    · rw [deleteI, deleteI]
      show (d.xor_checksum.xor e.get_hash).xor (xorFold d.new_list) = _
      rw [Checksum.xor_assoc, Checksum.xor_comm e.get_hash, ← Checksum.xor_assoc]
    · rw [deleteI, deleteI]
      show d.xor_checksum.xor (xorFold (d.new_list ++ [e])) = _
      rw [xorFold_snoc, ← Checksum.xor_assoc]

theorem deleteLoop_I (bl : PathBanlist) (fs : Filesystem) (ans : Nat → YesNoAuto) :
    ∀ (l : List EDElement) (d : DeleteState),
    deleteI (l.foldl (deleteStep bl fs ans) d) = (deleteI d).xor (xorFold l)
  | [], d => by
    show deleteI d = (deleteI d).xor (xorFold [])
    rw [xorFold, xorFoldFrom, List.foldl_nil, Checksum.xor_zero]
  | e :: l, d => by
    rw [List.foldl_cons, deleteLoop_I bl fs ans l (deleteStep bl fs ans d e),
      deleteStep_I]
    have hr : xorFold (e :: l) = e.get_hash.xor (xorFold l) := by
      rw [xorFold, xorFoldFrom_cons, Checksum.zero_xor, xorFoldFrom_eq_xor]
    rw [hr, ← Checksum.xor_assoc]

theorem inv_delete {st : EDList} (h : st.inv) (fs : Filesystem)
    (answers : Nat → YesNoAuto) : (st.delete fs answers).1.inv := by
  rw [EDList.inv]
  show (st.element_list.foldl (deleteStep st.banlist fs answers)
    ⟨[], st.xor_checksum, [], none, 0⟩).xor_checksum = xorFold
      (st.element_list.foldl (deleteStep st.banlist fs answers)
        ⟨[], st.xor_checksum, [], none, 0⟩).new_list
  apply Checksum.eq_of_xor_eq_zero
  show deleteI (st.element_list.foldl (deleteStep st.banlist fs answers)
    ⟨[], st.xor_checksum, [], none, 0⟩) = Checksum.zero
  rw [deleteLoop_I]
  show (st.xor_checksum.xor (xorFold [])).xor (xorFold st.element_list) = _
  rw [EDList.inv] at h
  rw [xorFold, xorFoldFrom, List.foldl_nil, Checksum.xor_zero, h, Checksum.xor_self]

theorem inv_create {st : EDList} (h : st.inv) (fs : Filesystem)
    (indexed : List String) : (st.create fs indexed).1.inv := by
  rw [EDList.create]
  generalize (indexed.filter _) = pending
  have hgen : ∀ (ps : List String) (acc : EDList × List String), acc.1.inv →
      (ps.foldl (fun acc p =>
        match EDElement.from_path fs p with
        | .ok e => (acc.1.add_e_d_element e, acc.2)
        | .error err => (acc.1, acc.2 ++ [err])) acc).1.inv := by
    intro ps
    induction ps with
    | nil => intro acc hacc; exact hacc
    | cons p ps ih =>
      intro acc hacc
      rw [List.foldl_cons]
      apply ih
      cases hfp : EDElement.from_path fs p with
      | ok e => simp only [hfp]; exact inv_add_e_d_element hacc e
      | error err => simp only [hfp]; exact hacc
  exact hgen pending (st, []) h

theorem inv_sortED {st : EDList} (h : st.inv) : st.sortED.inv := by
  rw [EDList.inv] at *
  show st.xor_checksum = xorFold (sortByLe edLeB st.element_list)
  rw [xorFold_perm (perm_sortByLe edLeB st.element_list), h]

theorem syncPlanStep_inv (sfp frm toP : String) {s : SyncPlanState}
    (h : s.store.inv) (e : EDElement) : (syncPlanStep sfp frm toP s e).store.inv := by
  rw [syncPlanStep]
  split
  · exact inv_add_e_d_element h _
  · split
    · exact inv_add_e_d_element h _
    · exact inv_add_e_d_element h _

theorem syncPlanFold_inv (sfp frm toP : String) :
    ∀ (l : List EDElement) (s : SyncPlanState), s.store.inv →
    (l.foldl (syncPlanStep sfp frm toP) s).store.inv
  | [], _, h => h
  | e :: l, s, h => by
    rw [List.foldl_cons]
    exact syncPlanFold_inv sfp frm toP l _ (syncPlanStep_inv sfp frm toP h e)

theorem option_isSome_eq_not_isNone {α : Type} (o : Option α) :
    o.isSome = !o.isNone := by cases o <;> rfl

/-- The partition step of `sync` preserves the invariant: removing the
entries under the target prefix and XOR-ing each removed hash out of the
fold leaves the fold of the kept entries. -/
theorem inv_sync_partition {st : EDList} (h : st.inv) (pre : String) :
    (st.element_list.filter (fun e => (stripPre pre e.get_path).isSome)).foldl
        (fun x e => x.xor e.get_hash) st.xor_checksum =
      xorFold (st.element_list.filter (fun e => (stripPre pre e.get_path).isNone)) := by
  show xorFoldFrom st.xor_checksum
    (st.element_list.filter (fun e => (stripPre pre e.get_path).isSome)) = _
  rw [xorFoldFrom_eq_xor]
  rw [EDList.inv] at h
  rw [h, xorFold_filter_split (fun e => (stripPre pre e.get_path).isNone) st.element_list]
  have hpred : (fun (e : EDElement) => (stripPre pre e.get_path).isSome) =
      (fun (e : EDElement) => !(stripPre pre e.get_path).isNone) := by
    funext e
    exact option_isSome_eq_not_isNone _
  rw [hpred, Checksum.xor_cancel_right]

theorem inv_syncValidationStep {planned : EDList} {bkl : List EDElement}
    {bkx : Checksum} (h1 : planned.inv)
    (h2 : bkx = xorFold bkl) (a b c d : Checksum) (ap : YesNo) :
    (syncValidationStep a b c d planned bkl bkx ap).1.inv := by
  rw [syncValidationStep]
  split
  · exact h1
  · split
    · exact h2
    · exact h1

theorem inv_sync {st : EDList} (h : st.inv) (source : EDList)
    (source_folder_path syncToPre syncFromPre : String) (confirm approve : YesNo) :
    (st.sync source source_folder_path syncToPre syncFromPre confirm approve).1.inv := by
  rw [EDList.sync]
  split
  · exact h
  · have hst1 : (({ st with
        element_list := st.element_list.filter
          (fun e => (stripPre syncToPre e.get_path).isNone),
        xor_checksum := (st.element_list.filter
          (fun e => (stripPre syncToPre e.get_path).isSome)).foldl
            (fun x e => x.xor e.get_hash) st.xor_checksum } : EDList)).inv := by
      rw [EDList.inv]
      exact inv_sync_partition h syncToPre
    dsimp only
    split
    · next final e hv =>
      have hfst := congrArg Prod.fst hv
      simp only at hfst
      rw [← hfst]
      exact inv_syncValidationStep (syncPlanFold_inv _ _ _ _ _ hst1) h _ _ _ _ _
    · next final u hv =>
      have hfst := congrArg Prod.fst hv
      simp only at hfst
      rw [← hfst]
      exact inv_syncValidationStep (syncPlanFold_inv _ _ _ _ _ hst1) h _ _ _ _ _

/- ### Reachable stores and the global fold invariant (C1) -/

/-- The `EDList` states the program can hold: an empty store from the
"create new file" path, a store returned by `open`, and the closure under
`create`, `delete`, `sort` and `sync` — the sync closure covers every
return path, including the `ChecksumValidationError` return after
planning and the operator-denial restore. -/
inductive EDListReachable : EDList → Prop where
  | created_empty (root : String) (bl : PathBanlist) :
      EDListReachable (EDList.new root bl [] Checksum.zero)
  | opened {root : String} {bl : PathBanlist} {lines : List String} {st : EDList}
      (h : EDList.openFromLines root bl lines = .ok st) : EDListReachable st
  | created {st : EDList} (h : EDListReachable st) (fs : Filesystem)
      (indexed : List String) : EDListReachable (st.create fs indexed).1
  | deleted {st : EDList} (h : EDListReachable st) (fs : Filesystem)
      (answers : Nat → YesNoAuto) : EDListReachable (st.delete fs answers).1
  | sorted {st : EDList} (h : EDListReachable st) : EDListReachable st.sortED
  | synced {st : EDList} (h : EDListReachable st) (source : EDList)
      (source_folder_path syncToPre syncFromPre : String) (confirm approve : YesNo) :
      EDListReachable
        (st.sync source source_folder_path syncToPre syncFromPre confirm approve).1

/-- C1: in every reachable store the `xor_checksum` field equals the XOR
fold of the element hashes of `element_list`; every mutation maintains it
incrementally — `add_e_d_element` XORs the inserted hash in, the
delete/partition paths XOR each removed hash out — and the fold is never
recomputed from scratch (the per-operation lemmas used in this induction
each add or cancel exactly the affected hashes against the live value). -/
theorem xor_fold_invariant_reachable {st : EDList} (h : EDListReachable st) :
    st.xor_checksum = xorFold st.element_list := by
  induction h with
  | created_empty root bl => exact inv_new_empty root bl
  | opened hopen => exact inv_openFromLines hopen
  | created _ fs indexed ih => exact inv_create ih fs indexed
  | deleted _ fs answers ih => exact inv_delete ih fs answers
  | sorted _ ih => exact inv_sortED ih
  | synced _ source sfp toPre frmPre c a ih => exact inv_sync ih source sfp toPre frmPre c a

/-- Witness for C1: a store reached by creating an empty list, adding an
entry through `create`, then deleting with an all-yes operator; the
invariant instantiates to an evaluable equality. -/
theorem xor_fold_invariant_reachable_witness :
    EDListReachable
        ((EDList.new "." PathBanlist.new_dummy [] Checksum.zero).create
          ⟨fun _ => some ⟨true, false, 4⟩, fun _ => some [9], fun _ => none, fun _ => true⟩
          ["./x"]).1
    ∧ ((EDList.new "." PathBanlist.new_dummy [] Checksum.zero).create
          ⟨fun _ => some ⟨true, false, 4⟩, fun _ => some [9], fun _ => none, fun _ => true⟩
          ["./x"]).1.xor_checksum =
        xorFold ((EDList.new "." PathBanlist.new_dummy [] Checksum.zero).create
          ⟨fun _ => some ⟨true, false, 4⟩, fun _ => some [9], fun _ => none, fun _ => true⟩
          ["./x"]).1.element_list :=
  ⟨.created (.created_empty "." PathBanlist.new_dummy) _ _,
   xor_fold_invariant_reachable (.created (.created_empty "." PathBanlist.new_dummy) _ _)⟩

/-- C10: `Checksum`'s XOR-assignment is a self-inverse, commutative,
associative operation with the all-zero checksum as identity; folding a
collection of digests is therefore order-independent, and XOR-ing an
entry's hash out exactly cancels the `add_e_d_element` update. -/
theorem checksum_xor_group_properties :
    (∀ a b : Checksum, (a.xor b).xor b = a)
    ∧ (∀ a b : Checksum, a.xor b = b.xor a)
    ∧ (∀ a b c : Checksum, (a.xor b).xor c = a.xor (b.xor c))
    ∧ (∀ {l1 l2 : List EDElement}, List.Perm l1 l2 → xorFold l1 = xorFold l2)
    ∧ (∀ (st : EDList) (e : EDElement),
        ((st.add_e_d_element e).xor_checksum).xor e.get_hash = st.xor_checksum) :=
  ⟨Checksum.xor_cancel_right,
   Checksum.xor_comm,
   Checksum.xor_assoc,
   fun h => xorFold_perm h,
   fun st e => Checksum.xor_cancel_right st.xor_checksum e.get_hash⟩

/-- Witness for C10's permutation hypothesis at a concrete reordering. -/
theorem checksum_xor_group_properties_witness :
    List.Perm [EDElement.from_internal "a" 1 (.link "t"),
               EDElement.from_internal "b" 2 (.link "u")]
              [EDElement.from_internal "b" 2 (.link "u"),
               EDElement.from_internal "a" 1 (.link "t")]
    ∧ xorFold [EDElement.from_internal "a" 1 (.link "t"),
               EDElement.from_internal "b" 2 (.link "u")] =
        xorFold [EDElement.from_internal "b" 2 (.link "u"),
                 EDElement.from_internal "a" 1 (.link "t")] :=
  ⟨List.Perm.swap _ _ _,
   checksum_xor_group_properties.2.2.2.1 (List.Perm.swap _ _ _)⟩

/- ### C7: ordering after `sort` -/

/-- The ordering the claim states, written from the claim's words:
lexicographic on slash-delimited components, with the first differing
component deciding, and a path that is a strict component-prefix of
another ordered before it. -/
def lexComponentCmp : List String → List String → Ordering
  | [], [] => .eq
  | [], _ :: _ => .lt
  | _ :: _, [] => .gt
  | a :: as, b :: bs =>
    match strCmp a b with
    | .eq => lexComponentCmp as bs
    | o => o

/-- The claimed component-wise comparison of two paths. -/
def specComponentCmp (a b : String) : Ordering :=
  lexComponentCmp (pathComponents a) (pathComponents b)

/-- C7 (amended): after `sort` the element list is a permutation of the
input ordered by the *code's* comparator — lexicographic on slash
components except that when the two paths agree on every component before
the end of the shorter one, the shorter sorts first regardless of how the
last shared component compares; consecutive entries compare ≤ 0 under
that comparator. -/
theorem sort_pairwise_code_comparator (st : EDList) :
    List.Perm st.sortED.element_list st.element_list
    ∧ List.Chain' (fun a b => edElementCmp a b ≠ Ordering.gt)
        st.sortED.element_list := by
  refine ⟨perm_sortByLe edLeB st.element_list, ?_⟩
  have hpw := pairwise_sortByLe edLeB edLeB_total edLeB_trans st.element_list
  have hpw2 : List.Pairwise (fun a b => edElementCmp a b ≠ Ordering.gt)
      (sortByLe edLeB st.element_list) := by
    refine hpw.imp ?_
    intro a b hle hgt
    rw [edLeB, hgt] at hle
    cases hle
  exact hpw2.chain'

/-- C7 counterexample: sorting the two paths `a/b/c` and `a/z` puts `a/z`
first (the code's length rule overrides the component comparison at the
last shared position), yet component-wise lexicographic comparison says
`a/z` is *greater* than `a/b/c` — so consecutive entries do not satisfy
the claimed ≤ 0 ordering. -/
theorem sort_not_lexicographic_counterexample :
    ((EDList.new "." PathBanlist.new_dummy
        [EDElement.from_internal "a/b/c" 1 (.link "t"),
         EDElement.from_internal "a/z" 2 (.link "u")]
        Checksum.zero).sortED.element_list.map EDElement.get_path
      = ["a/z", "a/b/c"])
    ∧ specComponentCmp "a/z" "a/b/c" = .gt := by
  constructor
  · decide
  · decide

/- ### C8: what `delete` retains and removes -/

/-- The retention test of the `delete` loop: not banned, and
`test_metadata` passes. -/
def deleteKeepB (bl : PathBanlist) (fs : Filesystem) (e : EDElement) : Bool :=
  !(bl.is_in_banlist e.get_path) &&
    (match e.test_metadata fs with
     | .ok _ => true
     | .error _ => false)

theorem deleteStep_keep (bl : PathBanlist) (fs : Filesystem)
    (answers : Nat → YesNoAuto) (d : DeleteState) (e : EDElement)
    (hk : deleteKeepB bl fs e = true) :
    deleteStep bl fs answers d e = { d with new_list := d.new_list ++ [e] } := by
  rw [deleteKeepB, Bool.and_eq_true] at hk
  obtain ⟨hban, hmeta⟩ := hk
  have hban2 : bl.is_in_banlist e.get_path = false := by simpa using hban
  rw [deleteStep]
  cases hm : e.test_metadata fs with
  | ok u => simp [hban2, hm]
  | error msg => rw [hm] at hmeta; cases hmeta

theorem deleteAnswer_all_yes (answers : Nat → YesNoAuto)
    (hyes : ∀ n, (answers n).get_yesno_val = .yes) (auto : Option YesNo)
    (count : Nat) (hauto : auto = none ∨ auto = some .yes) :
    (deleteAnswer answers auto count).1 = .yes ∧
    ((deleteAnswer answers auto count).2.1 = none ∨
      (deleteAnswer answers auto count).2.1 = some .yes) := by
  rcases hauto with h0 | h0 <;> subst h0
  · cases hans : answers count with
    | once v =>
      have hv : v = .yes := by
        have := hyes count
        rw [hans] at this
        exact this
      subst hv
      simp [deleteAnswer, hans, YesNoAuto.get_yesno_val]
    | continued v =>
      have hv : v = .yes := by
        have := hyes count
        rw [hans] at this
        exact this
      subst hv
      simp [deleteAnswer, hans, YesNoAuto.get_yesno_val]
  · simp [deleteAnswer]

theorem deleteStep_remove (bl : PathBanlist) (fs : Filesystem)
    (answers : Nat → YesNoAuto) (hyes : ∀ n, (answers n).get_yesno_val = .yes)
    (d : DeleteState) (e : EDElement) (hk : deleteKeepB bl fs e = false)
    (hauto : d.auto_action = none ∨ d.auto_action = some .yes) :
    ∃ auto2 count2,
      deleteStep bl fs answers d e =
        { d with
          xor_checksum := d.xor_checksum.xor e.get_hash,
          deleted_paths := d.deleted_paths ++ [e.take_path],
          auto_action := auto2,
          prompt_count := count2 }
      ∧ (auto2 = none ∨ auto2 = some .yes) := by
  obtain ⟨ha1, ha2⟩ := deleteAnswer_all_yes answers hyes d.auto_action d.prompt_count hauto
  rcases hda : deleteAnswer answers d.auto_action d.prompt_count with ⟨ans, auto2, count2⟩
  rw [hda] at ha1 ha2
  simp only at ha1 ha2
  subst ha1
  refine ⟨auto2, count2, ?_, ha2⟩
  rw [deleteStep]
  by_cases hban : bl.is_in_banlist e.get_path = true
  · simp [hban, hda]
  · cases hm : e.test_metadata fs with
    | error msg => simp [hban, hm, hda]
    | ok u =>
      exfalso
      rw [deleteKeepB, hm] at hk
      simp [hban] at hk

theorem deleteLoop_all_yes (bl : PathBanlist) (fs : Filesystem)
    (answers : Nat → YesNoAuto) (hyes : ∀ n, (answers n).get_yesno_val = .yes) :
    ∀ (l : List EDElement) (d : DeleteState),
    (d.auto_action = none ∨ d.auto_action = some .yes) →
    (l.foldl (deleteStep bl fs answers) d).new_list
        = d.new_list ++ l.filter (deleteKeepB bl fs)
    ∧ (l.foldl (deleteStep bl fs answers) d).deleted_paths
        = d.deleted_paths ++
            (l.filter (fun e => !deleteKeepB bl fs e)).map EDElement.take_path
    ∧ (l.foldl (deleteStep bl fs answers) d).xor_checksum
        = xorFoldFrom d.xor_checksum (l.filter (fun e => !deleteKeepB bl fs e))
  | [], d, _ => by
    refine ⟨by simp, by simp, ?_⟩
    simp [xorFoldFrom]
  | e :: l, d, hauto => by
    rw [List.foldl_cons]
    by_cases hk : deleteKeepB bl fs e = true
    · rw [deleteStep_keep bl fs answers d e hk]
      obtain ⟨hn, hd, hx⟩ := deleteLoop_all_yes bl fs answers hyes l
        { d with new_list := d.new_list ++ [e] } hauto
      rw [List.filter_cons_of_pos hk, hn, hd, hx]
      have hneg : (!deleteKeepB bl fs e) = false := by simp [hk]
      rw [List.filter_cons_of_neg (by simp [hneg])]
      refine ⟨by simp, by simp, rfl⟩
    · have hk2 : deleteKeepB bl fs e = false := by simpa using hk
      obtain ⟨auto2, count2, hstep, hauto2⟩ :=
        deleteStep_remove bl fs answers hyes d e hk2 hauto
      rw [hstep]
      obtain ⟨hn, hd, hx⟩ := deleteLoop_all_yes bl fs answers hyes l
        { d with
          xor_checksum := d.xor_checksum.xor e.get_hash,
          deleted_paths := d.deleted_paths ++ [e.take_path],
          auto_action := auto2,
          prompt_count := count2 } hauto2
      rw [hn, hd, hx]
      rw [List.filter_cons_of_neg (by simp [hk2]),
        List.filter_cons_of_pos (by simp [hk2])]
      refine ⟨by simp, by simp, ?_⟩
      rw [xorFoldFrom_cons]

/-- C8 (amended): for runs in which every operator answer is yes (or
continue-yes), `delete` retains exactly the entries that are unbanned and
pass `test_metadata`; every removed entry's hash is XOR'd out of the live
fold, and the removed entries' paths are exactly the summary reported at
the end. -/
theorem delete_all_yes_characterization (st : EDList) (fs : Filesystem)
    (answers : Nat → YesNoAuto)
    (hyes : ∀ n, (answers n).get_yesno_val = .yes) :
    (∀ e ∈ (st.delete fs answers).1.element_list,
        st.banlist.is_in_banlist e.get_path = false ∧ e.test_metadata fs = .ok ())
    ∧ (st.delete fs answers).1.element_list
        = st.element_list.filter (deleteKeepB st.banlist fs)
    ∧ (st.delete fs answers).2
        = (st.element_list.filter
            (fun e => !deleteKeepB st.banlist fs e)).map EDElement.take_path
    ∧ (st.delete fs answers).1.xor_checksum
        = xorFoldFrom st.xor_checksum
            (st.element_list.filter (fun e => !deleteKeepB st.banlist fs e)) := by
  obtain ⟨hn, hd, hx⟩ := deleteLoop_all_yes st.banlist fs answers hyes
    st.element_list ⟨[], st.xor_checksum, [], none, 0⟩ (Or.inl rfl)
  have hlist : (st.delete fs answers).1.element_list
      = st.element_list.filter (deleteKeepB st.banlist fs) := by
    show (st.element_list.foldl (deleteStep st.banlist fs answers)
      ⟨[], st.xor_checksum, [], none, 0⟩).new_list = _
    rw [hn]
    simp
  refine ⟨?_, hlist, ?_, ?_⟩
  · intro e he
    rw [hlist] at he
    have := List.of_mem_filter he
    rw [deleteKeepB, Bool.and_eq_true] at this
    obtain ⟨h1, h2⟩ := this
    refine ⟨by simpa using h1, ?_⟩
    cases hm : e.test_metadata fs with
    | ok u => rfl
    | error msg => rw [hm] at h2; cases h2
  · show (st.element_list.foldl (deleteStep st.banlist fs answers)
      ⟨[], st.xor_checksum, [], none, 0⟩).deleted_paths = _
    rw [hd]
    simp
  · show (st.element_list.foldl (deleteStep st.banlist fs answers)
      ⟨[], st.xor_checksum, [], none, 0⟩).xor_checksum = _
    rw [hx]

/-- Witness for C8: a two-entry store where one entry's modified time has
changed on disk; with an all-yes operator, the failing entry is removed
(path reported, hash XOR'd out) and the healthy entry is retained. -/
theorem delete_all_yes_characterization_witness :
    (∀ n, ((fun (_ : Nat) => YesNoAuto.continued YesNo.yes) n).get_yesno_val = YesNo.yes)
    ∧ (∀ e ∈ ((EDList.new "." PathBanlist.new_dummy
          [EDElement.from_internal "good" 4 (.link "t"),
           EDElement.from_internal "bad" 5 (.link "u")]
          Checksum.zero).delete
          ⟨fun (p : String) => if p = "good" then some ⟨false, false, 4⟩ else some ⟨false, false, 9⟩,
           fun (_ : String) => none, fun (_ : String) => none, fun (_ : String) => true⟩
          (fun (_ : Nat) => YesNoAuto.continued YesNo.yes)).1.element_list,
        PathBanlist.new_dummy.is_in_banlist e.get_path = false ∧
          e.test_metadata
            ⟨fun (p : String) => if p = "good" then some ⟨false, false, 4⟩ else some ⟨false, false, 9⟩,
             fun (_ : String) => none, fun (_ : String) => none, fun (_ : String) => true⟩ = .ok ()) :=
  ⟨fun _ => rfl,
   (delete_all_yes_characterization
      (EDList.new "." PathBanlist.new_dummy
        [EDElement.from_internal "good" 4 (.link "t"),
         EDElement.from_internal "bad" 5 (.link "u")]
        Checksum.zero)
      ⟨fun (p : String) => if p = "good" then some ⟨false, false, 4⟩ else some ⟨false, false, 9⟩,
       fun _ => none, fun _ => none, fun _ => true⟩
      (fun (_ : Nat) => YesNoAuto.continued YesNo.yes)
      (fun _ => rfl)).1⟩

/-- C8 counterexample: with operator answer No, an entry whose metadata
test fails is *retained* — so the claim quantified over every answer
sequence is false. -/
theorem delete_retains_failing_counterexample :
    ((EDList.new "." PathBanlist.new_dummy
        [EDElement.from_internal "p" 5 (.link "t")]
        (EDElement.from_internal "p" 5 (.link "t")).get_hash).delete
      ⟨fun (_ : String) => some ⟨false, false, 6⟩, fun (_ : String) => none,
       fun (_ : String) => none, fun (_ : String) => true⟩
      (fun (_ : Nat) => YesNoAuto.once YesNo.no)).1.element_list
      = [EDElement.from_internal "p" 5 (.link "t")]
    ∧ (EDElement.from_internal "p" 5 (.link "t")).test_metadata
        ⟨fun (_ : String) => some ⟨false, false, 6⟩, fun (_ : String) => none,
         fun (_ : String) => none, fun (_ : String) => true⟩
        ≠ .ok () := by
  constructor
  · decide
  · decide

/- ### C2: single-bit corruption of the manifest file -/

/-- Flip one bit of the scalar value of the i-th character of a string. -/
def flipAt (bit : Nat) : Nat → List Char → List Char
  | _, [] => []
  | 0, c :: rest => Char.ofNat (c.toNat ^^^ (1 <<< bit)) :: rest
  | i + 1, c :: rest => c :: flipAt bit i rest

def flipCharBit (s : String) (i bit : Nat) : String :=
  String.mk (flipAt bit i s.data)

/-- File-content checksum for the C2 scenario: first byte 26 (hex `1A`),
so that the entry line and the XORCHECKSUM line both contain hex
letters. -/
def cexChecksum : Checksum :=
  ⟨26 :: List.replicate 31 0, by simp, by
    intro b hb
    simp at hb
    rcases hb with h | h <;> omega⟩

def cexElement : EDElement := EDElement.from_internal "f" 7 (.file cexChecksum)

def cexStore : EDList :=
  EDList.new "." PathBanlist.new_dummy [cexElement] cexElement.get_hash

/-- C2 counterexample.  `cexStore`'s manifest lines are
`LISTVERSION = 1.1`, `XORCHECKSUM = AC91…`, `CHECKSUM = 8095…` and the
entry line `[f,7,file(1A00…00)]`, and `open` accepts them.  Flipping bit 5
of character 11 of the entry line (line index 3) turns the stored hash
digit `A` into `a`; the hex decoder is case-insensitive, the entry parses
to the same element, and `open` *succeeds* — not the claimed
`FinChecksumMismatch`.  Flipping bit 5 of character 14 of the XORCHECKSUM
line (its first hex digit, also `A`) likewise leaves `open` succeeding —
not the claimed `XorChecksumMismatch`. -/
theorem open_bitflip_counterexample :
    (EDList.openFromLines "." PathBanlist.new_dummy
        (EDList.write_edlist_lines cexStore)).isOk = true
    ∧ (EDList.openFromLines "." PathBanlist.new_dummy
        ((EDList.write_edlist_lines cexStore).set 3
          (flipCharBit ((EDList.write_edlist_lines cexStore).getD 3 "") 11 5))).isOk = true
    ∧ (EDList.openFromLines "." PathBanlist.new_dummy
        ((EDList.write_edlist_lines cexStore).set 1
          (flipCharBit ((EDList.write_edlist_lines cexStore).getD 1 "") 14 5))).isOk
        = true := by
  refine ⟨by decide, by decide, by decide⟩

/-- C2 (amended): altering the XORCHECKSUM line of a well-formed manifest
so that it still parses but decodes to a *different* checksum (any
single-bit flip of a hex digit that changes the decoded value does this)
makes `open` fail with `XorChecksumMismatch` before any store is
returned; the other lines being unchanged, the locally recomputed fold
still equals the original stored value, which the altered line no longer
matches.  (Flips that keep the decoded value — letter-case toggles — leave
`open` succeeding, and entry-line flips surface as `XorChecksumMismatch`,
a parse error or success, never specifically `FinChecksumMismatch`; see
the counterexample.) -/
theorem open_xor_line_change_mismatch (root : String) (bl : PathBanlist)
    (v x x2 f : String) (rest : List String) (st : EDList) (c c2 : Checksum)
    (hopen : EDList.openFromLines root bl (v :: x :: f :: rest) = .ok st)
    (hx : parseXorLine x = .ok c) (hx2 : parseXorLine x2 = .ok c2)
    (hne : c2 ≠ c) :
    EDList.openFromLines root bl (v :: x2 :: f :: rest) =
      .error .xorChecksumMismatch := by
  rw [EDList.openFromLines] at hopen ⊢
  cases hv : EDList.get_version_from_line v with
  | v1_1 =>
    simp only [hv, hx] at hopen
    simp only [hv, hx2]
    cases hf : stripPre FIN_CHECKSUM_PRE f with
    | none => simp [hf] at hopen
    | some finHex =>
      simp only [hf] at hopen ⊢
      cases he : parseElementLines rest with
      | error e1 => simp [he] at hopen
      | ok es =>
        simp only [he] at hopen ⊢
        simp only [openParsed] at hopen ⊢
        split at hopen
        · simp at hopen
        · next hxeq =>
          have hc : c = es.foldl (fun acc e => acc.xor e.get_hash) Checksum.zero := by
            by_contra hcon
            exact hxeq hcon
          split
          · rfl
          · next hcon =>
            exfalso
            apply hne
            have hc2 : c2 = es.foldl (fun acc e => acc.xor e.get_hash) Checksum.zero := by
              by_contra hcon2
              exact hcon hcon2
            rw [hc2, hc]
  | v1_0 => simp [hv] at hopen
  | missingIdentifier => simp [hv] at hopen
  | invalidVersion s => simp [hv] at hopen

/-- Witness for the amended C2 at the concrete `cexStore` manifest:
replacing the XORCHECKSUM line's hex by all zeroes (decoding to a
different checksum) yields `XorChecksumMismatch`. -/
theorem open_xor_line_change_mismatch_witness :
    (EDList.openFromLines "." PathBanlist.new_dummy
        ["LISTVERSION = 1.1",
         "XORCHECKSUM = AC91853C756FFB03B358F58D348C3D48D9D944E4FAEB4CEFA47B726022F1D32F",
         "CHECKSUM = 8095DFB7C7F39EF76F160FC4A831D775394838B3394789B902C3999FCE8937F0",
         "[f,7,file(1A00000000000000000000000000000000000000000000000000000000000000)]"]).isOk
      = true
    ∧ parseXorLine
        "XORCHECKSUM = AC91853C756FFB03B358F58D348C3D48D9D944E4FAEB4CEFA47B726022F1D32F"
        = .ok cexElement.get_hash
    ∧ parseXorLine
        "XORCHECKSUM = 0000000000000000000000000000000000000000000000000000000000000000"
        = .ok Checksum.zero
    ∧ Checksum.zero ≠ cexElement.get_hash
    ∧ EDList.openFromLines "." PathBanlist.new_dummy
        ["LISTVERSION = 1.1",
         "XORCHECKSUM = 0000000000000000000000000000000000000000000000000000000000000000",
         "CHECKSUM = 8095DFB7C7F39EF76F160FC4A831D775394838B3394789B902C3999FCE8937F0",
         "[f,7,file(1A00000000000000000000000000000000000000000000000000000000000000)]"]
        = .error .xorChecksumMismatch :=
  ⟨by decide, by decide, by decide, by decide,
   open_xor_line_change_mismatch "." PathBanlist.new_dummy
     "LISTVERSION = 1.1"
     "XORCHECKSUM = AC91853C756FFB03B358F58D348C3D48D9D944E4FAEB4CEFA47B726022F1D32F"
     "XORCHECKSUM = 0000000000000000000000000000000000000000000000000000000000000000"
     "CHECKSUM = 8095DFB7C7F39EF76F160FC4A831D775394838B3394789B902C3999FCE8937F0"
     ["[f,7,file(1A00000000000000000000000000000000000000000000000000000000000000)]"]
     cexStore cexElement.get_hash Checksum.zero
     (by rfl) (by decide) (by decide) (by decide)⟩

/- ### C3: the `ChecksumValidationError` branch of `sync` -/

/-- C3 evaluated at the failing branch input: when the post-planning
checksum comparison fails, `syncValidationStep` — the embedded lines
817-839 of `sync`, through which `EDList.sync` returns — yields
`ChecksumValidationError` with the store still in its *post-planning*
state: the snapshot (`backup_list`/`backup_xor`, here the empty list) is
not restored; only the operator-denial branch restores it.  Since
`sync` runs `do_file_operations` only after an `.ok` validation, no
filesystem operation has been executed on this path. -/
theorem sync_validation_branch_no_restore :
    (syncValidationStep (blake2Stand []) Checksum.zero Checksum.zero Checksum.zero
        (EDList.new "." PathBanlist.new_dummy
          [EDElement.from_internal "p" 1 (.link "t")]
          (EDElement.from_internal "p" 1 (.link "t")).get_hash)
        [] Checksum.zero YesNo.yes).2
      = .error .checksumValidationError
    ∧ (syncValidationStep (blake2Stand []) Checksum.zero Checksum.zero Checksum.zero
        (EDList.new "." PathBanlist.new_dummy
          [EDElement.from_internal "p" 1 (.link "t")]
          (EDElement.from_internal "p" 1 (.link "t")).get_hash)
        [] Checksum.zero YesNo.yes).1.element_list
      = [EDElement.from_internal "p" 1 (.link "t")]
    ∧ [EDElement.from_internal "p" 1 (.link "t")] ≠ ([] : List EDElement) := by
  refine ⟨by decide, by decide, by decide⟩
